import Mathlib

/-!
Verification development for the canvas-illustrator repository
(directory-tree "poster" visualizations, design3 family).

The definitions below are shallow embeddings of the JavaScript sources:
  * `walkVal` / `walkKeys`  — the tree builder `walk` of src/design3/index.js
    (first variant, with both a node cap `MaxNodes` and a depth cap `MaxLevels`);
  * the depth-tiled Cartesian layout of src/design3/index.js (second variant),
    with its sibling-collision repair pass and `shiftSubtree`;
  * the radial layout of the circular-mean variant;
  * `toScreen`, `depthToColor`, `MakePoster` and the draw-call sequence of `Render`.

JavaScript numbers are modelled as elements of a linear ordered field
(`ℚ` for the executable Cartesian layout, `ℝ` where trigonometry is involved).
-/

/-- A parsed JSON value as the builder sees it: a non-null object is a
directory (`obj`, keyed children in enumeration order), anything else
(`null`, strings, numbers, booleans) is a file leaf. -/
inductive JVal where
  | leaf : JVal
  | obj : List (String × JVal) → JVal

/-- Mirrors the JS test `val !== null && typeof val === "object"`. -/
def JVal.isDir : JVal → Bool
  | .leaf => false
  | .obj _ => true

/-- One entry of the builder's `nodeList` (fields pushed by `walk`). -/
structure BNode where
  id : String
  name : String
  type : String
  depth : Nat
  indexInParent : Nat
  siblingCount : Nat
deriving Repr, DecidableEq

/-- One entry of the builder's `edgeList`: `{ from: parentId, to: id }`. -/
structure BEdge where
  fromId : String
  toId : String
deriving Repr, DecidableEq

/-- The mutable state threaded through `walk`: the `nodeList`, `edgeList`
and `nodeCount` variables of `MakePoster`. -/
structure WalkSt where
  nodes : List BNode
  edges : List BEdge
  count : Nat
deriving Repr, DecidableEq

/-- Initial builder state (`nodeList = []`, `edgeList = []`, `nodeCount = 0`). -/
def WalkSt.init : WalkSt := { nodes := [], edges := [], count := 0 }

/-- The three pushes performed for one admitted key:
`nodeList.push(...)`, `nodeCount += 1`, and the conditional `edgeList.push`. -/
def WalkSt.push (st : WalkSt) (node : BNode) (edge : List BEdge) : WalkSt :=
  { nodes := st.nodes ++ [node], edges := st.edges ++ edge, count := st.count + 1 }

@[simp] theorem WalkSt.push_count (st : WalkSt) (node : BNode) (edge : List BEdge) :
    (st.push node edge).count = st.count + 1 := rfl

@[simp] theorem WalkSt.push_nodes (st : WalkSt) (node : BNode) (edge : List BEdge) :
    (st.push node edge).nodes = st.nodes ++ [node] := rfl

@[simp] theorem WalkSt.push_edges (st : WalkSt) (node : BNode) (edge : List BEdge) :
    (st.push node edge).edges = st.edges ++ edge := rfl

/-- The identifier rule of the walk: `var id = path ? path + "/" + key : key`
(an empty `path` string is falsy in JavaScript). -/
def walkId (path key : String) : String :=
  if path = "" then key else path ++ "/" ++ key

/-- The conditional edge push `if (parentId) edgeList.push({from: parentId, to: id})`:
a `null` or empty-string `parentId` is falsy, so no edge is pushed. -/
def walkEdge (parentId : Option String) (id : String) : List BEdge :=
  match parentId with
  | some p => if p = "" then [] else [{ fromId := p, toId := id }]
  | none => []

/-- The node-and-edge push performed for one admitted key of the walk. -/
def walkStep (key : String) (isDir : Bool) (parentId : Option String)
    (depth idx sibCount : Nat) (path : String) (st : WalkSt) : WalkSt :=
  st.push
    { id := walkId path key, name := key, type := if isDir then "dir" else "file",
      depth := depth, indexInParent := idx, siblingCount := sibCount }
    (walkEdge parentId (walkId path key))

mutual
/-- The recursive `walk(obj, parentId, depth, path)` of src/design3/index.js
(first variant): returns immediately when `nodeCount >= MaxNodes` or
`depth >= MaxLevels`, otherwise iterates over the object's keys. -/
def walkVal (maxNodes maxLevels : Nat) (v : JVal) (parentId : Option String)
    (depth : Nat) (path : String) (st : WalkSt) : WalkSt :=
  match v with
  | .leaf => st
  | .obj kvs =>
      if maxNodes ≤ st.count then st
      else if maxLevels ≤ depth then st
      else walkKeys maxNodes maxLevels kvs kvs.length 0 parentId depth path st

/-- The `keys.forEach(function (key, index) ...)` body of `walk`: each key is
skipped once the node cap is hit; otherwise a node is pushed, an edge is pushed
when `parentId` is truthy, and directories are recursed into. -/
def walkKeys (maxNodes maxLevels : Nat) (kvs : List (String × JVal))
    (sibCount idx : Nat) (parentId : Option String) (depth : Nat) (path : String)
    (st : WalkSt) : WalkSt :=
  match kvs with
  | [] => st
  | (key, v) :: rest =>
      let st2 :=
        if maxNodes ≤ st.count then st
        else
          let st1 := walkStep key v.isDir parentId depth idx sibCount path st
          if v.isDir then
            walkVal maxNodes maxLevels v (some (walkId path key)) (depth + 1)
              (walkId path key) st1
          else st1
      walkKeys maxNodes maxLevels rest sibCount (idx + 1) parentId depth path st2
end

theorem walkStep_count (key : String) (isDir : Bool) (p : Option String)
    (d idx sib : Nat) (path : String) (st : WalkSt) :
    (walkStep key isDir p d idx sib path st).count = st.count + 1 := rfl

theorem walkVal_leaf (maxN maxL : Nat) (p : Option String) (d : Nat)
    (path : String) (st : WalkSt) :
    walkVal maxN maxL .leaf p d path st = st := by
  rw [walkVal]

theorem walkVal_obj_capped (maxN maxL : Nat) (kvs : List (String × JVal))
    (p : Option String) (d : Nat) (path : String) (st : WalkSt)
    (h : maxN ≤ st.count) :
    walkVal maxN maxL (.obj kvs) p d path st = st := by
  rw [walkVal]; rw [if_pos h]

theorem walkVal_obj_deep (maxN maxL : Nat) (kvs : List (String × JVal))
    (p : Option String) (d : Nat) (path : String) (st : WalkSt)
    (h1 : ¬ maxN ≤ st.count) (h2 : maxL ≤ d) :
    walkVal maxN maxL (.obj kvs) p d path st = st := by
  rw [walkVal]; rw [if_neg h1, if_pos h2]

theorem walkVal_obj_go (maxN maxL : Nat) (kvs : List (String × JVal))
    (p : Option String) (d : Nat) (path : String) (st : WalkSt)
    (h1 : ¬ maxN ≤ st.count) (h2 : ¬ maxL ≤ d) :
    walkVal maxN maxL (.obj kvs) p d path st
      = walkKeys maxN maxL kvs kvs.length 0 p d path st := by
  rw [walkVal]; rw [if_neg h1, if_neg h2]

theorem walkKeys_nil (maxN maxL : Nat) (sib idx : Nat) (p : Option String)
    (d : Nat) (path : String) (st : WalkSt) :
    walkKeys maxN maxL [] sib idx p d path st = st := by
  rw [walkKeys]

theorem walkKeys_cons_capped (maxN maxL : Nat) (key : String) (v : JVal)
    (rest : List (String × JVal)) (sib idx : Nat) (p : Option String) (d : Nat)
    (path : String) (st : WalkSt) (h : maxN ≤ st.count) :
    walkKeys maxN maxL ((key, v) :: rest) sib idx p d path st
      = walkKeys maxN maxL rest sib (idx + 1) p d path st := by
  rw [walkKeys]; rw [if_pos h]

theorem walkKeys_cons_leaf (maxN maxL : Nat) (key : String)
    (rest : List (String × JVal)) (sib idx : Nat) (p : Option String) (d : Nat)
    (path : String) (st : WalkSt) (h : ¬ maxN ≤ st.count) :
    walkKeys maxN maxL ((key, .leaf) :: rest) sib idx p d path st
      = walkKeys maxN maxL rest sib (idx + 1) p d path
          (walkStep key false p d idx sib path st) := by
  rw [walkKeys]; rw [if_neg h]; rfl

theorem walkKeys_cons_obj (maxN maxL : Nat) (key : String)
    (kvs' rest : List (String × JVal)) (sib idx : Nat) (p : Option String)
    (d : Nat) (path : String) (st : WalkSt) (h : ¬ maxN ≤ st.count) :
    walkKeys maxN maxL ((key, .obj kvs') :: rest) sib idx p d path st
      = walkKeys maxN maxL rest sib (idx + 1) p d path
          (walkVal maxN maxL (.obj kvs') (some (walkId path key)) (d + 1)
            (walkId path key)
            (walkStep key true p d idx sib path st)) := by
  rw [walkKeys]; rw [if_neg h]; rfl

/-- The full builder front-end: `walk(DirectoryMap, null, 0, "")`. -/
def runWalk (maxNodes maxLevels : Nat) (dm : JVal) : WalkSt :=
  walkVal maxNodes maxLevels dm none 0 "" WalkSt.init

/-- The `TruncatedMessage` assignment of `MakePoster`:
`nodeCount >= MaxNodes ? "Showing first " + MaxNodes + " nodes" : null`. -/
def truncatedMessage (maxNodes : Nat) (st : WalkSt) : Option String :=
  if maxNodes ≤ st.count then
    some ("Showing first " ++ toString maxNodes ++ " nodes")
  else none

mutual
/-- Number of nodes the walk admits for `v` at `depth` when only the depth cap
(not the node cap) constrains it. -/
def admissibleVal (maxLevels : Nat) (v : JVal) (depth : Nat) : Nat :=
  match v with
  | .leaf => 0
  | .obj kvs => if maxLevels ≤ depth then 0 else admissibleList maxLevels kvs depth

/-- Admissible-node count of a key list at a fixed depth. -/
def admissibleList (maxLevels : Nat) (kvs : List (String × JVal)) (depth : Nat) : Nat :=
  match kvs with
  | [] => 0
  | (_, v) :: rest =>
      1 + admissibleVal maxLevels v (depth + 1) + admissibleList maxLevels rest depth
end

mutual
theorem walkVal_count (maxN maxL : Nat) (v : JVal) (p : Option String) (d : Nat)
    (path : String) (st : WalkSt) (h : st.count ≤ maxN) :
    (walkVal maxN maxL v p d path st).count
      = min maxN (st.count + admissibleVal maxL v d) := by
  match v with
  | .leaf =>
      rw [walkVal_leaf]
      simp only [admissibleVal]
      omega
  | .obj kvs =>
      by_cases h1 : maxN ≤ st.count
      · rw [walkVal_obj_capped maxN maxL kvs p d path st h1]
        omega
      · by_cases h2 : maxL ≤ d
        · rw [walkVal_obj_deep maxN maxL kvs p d path st h1 h2]
          simp only [admissibleVal, if_pos h2]
          omega
        · rw [walkVal_obj_go maxN maxL kvs p d path st h1 h2]
          rw [walkKeys_count maxN maxL kvs kvs.length 0 p d path st h]
          simp only [admissibleVal, if_neg h2]

theorem walkKeys_count (maxN maxL : Nat) (kvs : List (String × JVal))
    (sib idx : Nat) (p : Option String) (d : Nat) (path : String) (st : WalkSt)
    (h : st.count ≤ maxN) :
    (walkKeys maxN maxL kvs sib idx p d path st).count
      = min maxN (st.count + admissibleList maxL kvs d) := by
  match kvs with
  | [] =>
      rw [walkKeys_nil]
      simp only [admissibleList]
      omega
  | (key, v) :: rest =>
      by_cases h1 : maxN ≤ st.count
      · rw [walkKeys_cons_capped maxN maxL key v rest sib idx p d path st h1]
        rw [walkKeys_count maxN maxL rest sib (idx + 1) p d path st h]
        simp only [admissibleList]
        omega
      · cases v with
        | leaf =>
            rw [walkKeys_cons_leaf maxN maxL key rest sib idx p d path st h1]
            rw [walkKeys_count maxN maxL rest sib (idx + 1) p d path _
              (by rw [walkStep_count]; omega)]
            rw [walkStep_count]
            simp only [admissibleList, admissibleVal]
            omega
        | obj kvs' =>
            rw [walkKeys_cons_obj maxN maxL key kvs' rest sib idx p d path st h1]
            have hst1 : (walkStep key true p d idx sib path st).count ≤ maxN := by
              rw [walkStep_count]; omega
            have hsub := walkVal_count maxN maxL (.obj kvs')
              (some (walkId path key)) (d + 1) (walkId path key) _ hst1
            rw [walkKeys_count maxN maxL rest sib (idx + 1) p d path _
              (by rw [hsub]; omega)]
            rw [hsub, walkStep_count]
            simp only [admissibleList]
            omega
end

mutual
theorem walkVal_len (maxN maxL : Nat) (v : JVal) (p : Option String) (d : Nat)
    (path : String) (st : WalkSt) :
    (walkVal maxN maxL v p d path st).nodes.length + st.count
      = (walkVal maxN maxL v p d path st).count + st.nodes.length := by
  match v with
  | .leaf =>
      rw [walkVal_leaf]
      omega
  | .obj kvs =>
      by_cases h1 : maxN ≤ st.count
      · rw [walkVal_obj_capped maxN maxL kvs p d path st h1]
        omega
      · by_cases h2 : maxL ≤ d
        · rw [walkVal_obj_deep maxN maxL kvs p d path st h1 h2]
          omega
        · rw [walkVal_obj_go maxN maxL kvs p d path st h1 h2]
          exact walkKeys_len maxN maxL kvs kvs.length 0 p d path st

theorem walkKeys_len (maxN maxL : Nat) (kvs : List (String × JVal))
    (sib idx : Nat) (p : Option String) (d : Nat) (path : String) (st : WalkSt) :
    (walkKeys maxN maxL kvs sib idx p d path st).nodes.length + st.count
      = (walkKeys maxN maxL kvs sib idx p d path st).count + st.nodes.length := by
  match kvs with
  | [] =>
      rw [walkKeys_nil]
      omega
  | (key, v) :: rest =>
      by_cases h1 : maxN ≤ st.count
      · rw [walkKeys_cons_capped maxN maxL key v rest sib idx p d path st h1]
        exact walkKeys_len maxN maxL rest sib (idx + 1) p d path st
      · cases v with
        | leaf =>
            rw [walkKeys_cons_leaf maxN maxL key rest sib idx p d path st h1]
            have hrest := walkKeys_len maxN maxL rest sib (idx + 1) p d path
              (walkStep key false p d idx sib path st)
            have hstep : (walkStep key false p d idx sib path st).nodes.length
                = st.nodes.length + 1 := by
              simp [walkStep, WalkSt.push]
            rw [walkStep_count, hstep] at hrest
            omega
        | obj kvs' =>
            rw [walkKeys_cons_obj maxN maxL key kvs' rest sib idx p d path st h1]
            have hsub := walkVal_len maxN maxL (.obj kvs')
              (some (walkId path key)) (d + 1) (walkId path key)
              (walkStep key true p d idx sib path st)
            have hrest := walkKeys_len maxN maxL rest sib (idx + 1) p d path
              (walkVal maxN maxL (.obj kvs') (some (walkId path key)) (d + 1)
                (walkId path key) (walkStep key true p d idx sib path st))
            have hstep : (walkStep key true p d idx sib path st).nodes.length
                = st.nodes.length + 1 := by
              simp [walkStep, WalkSt.push]
            rw [walkStep_count, hstep] at hsub
            omega
end

theorem runWalk_count (maxN maxL : Nat) (dm : JVal) :
    (runWalk maxN maxL dm).count = min maxN (admissibleVal maxL dm 0) := by
  have h := walkVal_count maxN maxL dm none 0 "" WalkSt.init (by simp [WalkSt.init])
  simpa [runWalk, WalkSt.init] using h

theorem runWalk_nodes_length (maxN maxL : Nat) (dm : JVal) :
    (runWalk maxN maxL dm).nodes.length = (runWalk maxN maxL dm).count := by
  have h := walkVal_len maxN maxL dm none 0 "" WalkSt.init
  simpa [runWalk, WalkSt.init] using h

theorem admissibleList_eq_zero (maxL : Nat) (kvs : List (String × JVal)) (d : Nat)
    (h : admissibleList maxL kvs d = 0) : kvs = [] := by
  cases kvs with
  | nil => rfl
  | cons kv rest =>
      rw [admissibleList] at h
      omega

mutual
theorem walkVal_cap_mono (maxN maxN' maxL : Nat) (v : JVal) (p : Option String)
    (d : Nat) (path : String) (st : WalkSt) (hNN : maxN ≤ maxN')
    (h : st.count + admissibleVal maxL v d ≤ maxN) :
    walkVal maxN maxL v p d path st = walkVal maxN' maxL v p d path st := by
  match v with
  | .leaf => rw [walkVal_leaf, walkVal_leaf]
  | .obj kvs =>
      by_cases h2 : maxL ≤ d
      · by_cases h1 : maxN ≤ st.count
        · by_cases h1' : maxN' ≤ st.count
          · rw [walkVal_obj_capped maxN maxL kvs p d path st h1,
              walkVal_obj_capped maxN' maxL kvs p d path st h1']
          · rw [walkVal_obj_capped maxN maxL kvs p d path st h1,
              walkVal_obj_deep maxN' maxL kvs p d path st h1' h2]
        · have h1' : ¬ maxN' ≤ st.count := by omega
          rw [walkVal_obj_deep maxN maxL kvs p d path st h1 h2,
            walkVal_obj_deep maxN' maxL kvs p d path st h1' h2]
      · have hAV : admissibleVal maxL (.obj kvs) d = admissibleList maxL kvs d := by
          rw [admissibleVal, if_neg h2]
        by_cases h1 : maxN ≤ st.count
        · have hAL : admissibleList maxL kvs d = 0 := by rw [hAV] at h; omega
          have hnil := admissibleList_eq_zero maxL kvs d hAL
          subst hnil
          by_cases h1' : maxN' ≤ st.count
          · rw [walkVal_obj_capped maxN maxL [] p d path st h1,
              walkVal_obj_capped maxN' maxL [] p d path st h1']
          · rw [walkVal_obj_capped maxN maxL [] p d path st h1,
              walkVal_obj_go maxN' maxL [] p d path st h1' h2, walkKeys_nil]
        · have h1' : ¬ maxN' ≤ st.count := by omega
          rw [walkVal_obj_go maxN maxL kvs p d path st h1 h2,
            walkVal_obj_go maxN' maxL kvs p d path st h1' h2]
          exact walkKeys_cap_mono maxN maxN' maxL kvs kvs.length 0 p d path st hNN
            (by rw [hAV] at h; exact h)

theorem walkKeys_cap_mono (maxN maxN' maxL : Nat) (kvs : List (String × JVal))
    (sib idx : Nat) (p : Option String) (d : Nat) (path : String) (st : WalkSt)
    (hNN : maxN ≤ maxN') (h : st.count + admissibleList maxL kvs d ≤ maxN) :
    walkKeys maxN maxL kvs sib idx p d path st
      = walkKeys maxN' maxL kvs sib idx p d path st := by
  match kvs with
  | [] => rw [walkKeys_nil, walkKeys_nil]
  | (key, v) :: rest =>
      rw [admissibleList] at h
      have h1 : ¬ maxN ≤ st.count := by omega
      have h1' : ¬ maxN' ≤ st.count := by omega
      cases v with
      | leaf =>
          rw [walkKeys_cons_leaf maxN maxL key rest sib idx p d path st h1,
            walkKeys_cons_leaf maxN' maxL key rest sib idx p d path st h1']
          exact walkKeys_cap_mono maxN maxN' maxL rest sib (idx + 1) p d path _ hNN
            (by rw [walkStep_count]; rw [admissibleVal] at h; omega)
      | obj kvs' =>
          rw [walkKeys_cons_obj maxN maxL key kvs' rest sib idx p d path st h1,
            walkKeys_cons_obj maxN' maxL key kvs' rest sib idx p d path st h1']
          have hst1 : (walkStep key true p d idx sib path st).count
              + admissibleVal maxL (.obj kvs') (d + 1) ≤ maxN := by
            rw [walkStep_count]; omega
          have hsub := walkVal_cap_mono maxN maxN' maxL (.obj kvs')
            (some (walkId path key)) (d + 1) (walkId path key)
            (walkStep key true p d idx sib path st) hNN hst1
          rw [← hsub]
          have hcount := walkVal_count maxN maxL (.obj kvs')
            (some (walkId path key)) (d + 1) (walkId path key)
            (walkStep key true p d idx sib path st)
            (by rw [walkStep_count]; omega)
          exact walkKeys_cap_mono maxN maxN' maxL rest sib (idx + 1) p d path _ hNN
            (by rw [hcount, walkStep_count]; omega)
end

/-- The scenario input of the spec: `{"a": {"b": null, "c": null}}`. -/
def scenarioInput : JVal := .obj [("a", .obj [("b", .leaf), ("c", .leaf)])]

/-- An input with 2000 distinct keys at the root level, each a file leaf. -/
def wideInput : JVal := .obj ((List.range 2000).map fun i => (toString i, JVal.leaf))

theorem admissibleList_all_leaves (maxL : Nat) (l : List String) (d : Nat) :
    admissibleList maxL (l.map fun s => (s, JVal.leaf)) d = l.length := by
  induction l with
  | nil => rw [List.map_nil, admissibleList]; rfl
  | cons s rest ih =>
      rw [List.map_cons, admissibleList, ih, admissibleVal]
      simp only [List.length_cons]
      omega

/-- C4: MakePoster admits at most MaxNodes nodes; the 2000-root-keys / cap-1000
scenario yields exactly 1000 nodes with `TruncatedMessage = "Showing first 1000
nodes"`; the message is set iff the node cap was reached (at least MaxNodes
admissible nodes exist), and a build cut only by the depth cap (fewer than
MaxNodes admissible nodes) leaves it null. -/
theorem C4_node_cap_and_truncation :
    (∀ maxN maxL : Nat, ∀ dm : JVal,
      (runWalk maxN maxL dm).nodes.length ≤ maxN) ∧
    ((runWalk 1000 4 wideInput).nodes.length = 1000 ∧
      truncatedMessage 1000 (runWalk 1000 4 wideInput)
        = some "Showing first 1000 nodes") ∧
    (∀ maxN maxL : Nat, ∀ dm : JVal,
      truncatedMessage maxN (runWalk maxN maxL dm)
          = some ("Showing first " ++ toString maxN ++ " nodes")
        ↔ maxN ≤ admissibleVal maxL dm 0) ∧
    (∀ maxN maxL : Nat, ∀ dm : JVal,
      admissibleVal maxL dm 0 < maxN →
        truncatedMessage maxN (runWalk maxN maxL dm) = none) := by
  have hlen : ∀ maxN maxL : Nat, ∀ dm : JVal,
      (runWalk maxN maxL dm).nodes.length = min maxN (admissibleVal maxL dm 0) := by
    intro maxN maxL dm
    rw [runWalk_nodes_length, runWalk_count]
  have hwide : admissibleVal 4 wideInput 0 = 2000 := by
    have h1 : wideInput
        = .obj (((List.range 2000).map toString).map fun s => (s, JVal.leaf)) := by
      rw [wideInput, List.map_map]
      rfl
    rw [h1, admissibleVal, if_neg (by omega), admissibleList_all_leaves]
    simp
  refine ⟨?_, ⟨?_, ?_⟩, ?_, ?_⟩
  · intro maxN maxL dm
    rw [hlen]; omega
  · rw [hlen, hwide]; omega
  · have hc : (1000 : Nat) ≤ (runWalk 1000 4 wideInput).count := by
      rw [runWalk_count, hwide]; omega
    rw [truncatedMessage, if_pos hc]
    rfl
  · intro maxN maxL dm
    rw [truncatedMessage]
    constructor
    · intro hmsg
      by_cases hc : maxN ≤ (runWalk maxN maxL dm).count
      · rw [runWalk_count] at hc; omega
      · rw [if_neg hc] at hmsg; exact absurd hmsg (by simp)
    · intro hA
      rw [if_pos (by rw [runWalk_count]; omega)]
  · intro maxN maxL dm hA
    rw [truncatedMessage, if_neg (by rw [runWalk_count]; omega)]

/-- C10: If the input contains exactly MaxNodes admissible nodes, the builder
admits all of them — the node list has MaxNodes entries and the whole result
is identical to a build with any laxer cap, so no node is dropped — yet
TruncatedMessage is still set to "Showing first MaxNodes nodes", because the
message is keyed on `nodeCount >= MaxNodes` rather than on a drop. -/
theorem C10_exact_cap_still_truncates (maxN maxL : Nat) (dm : JVal)
    (h : admissibleVal maxL dm 0 = maxN) :
    (runWalk maxN maxL dm).nodes.length = maxN ∧
    (∀ maxN' : Nat, maxN ≤ maxN' → runWalk maxN' maxL dm = runWalk maxN maxL dm) ∧
    truncatedMessage maxN (runWalk maxN maxL dm)
      = some ("Showing first " ++ toString maxN ++ " nodes") := by
  refine ⟨?_, ?_, ?_⟩
  · rw [runWalk_nodes_length, runWalk_count, h]; omega
  · intro maxN' hNN
    rw [runWalk, runWalk]
    exact (walkVal_cap_mono maxN maxN' maxL dm none 0 "" WalkSt.init hNN
      (by simp [WalkSt.init]; omega)).symm
  · rw [truncatedMessage, if_pos (by rw [runWalk_count, h]; omega)]

/-- Witness for C10 at input `{"a": null, "b": null}` with cap 2: both nodes
are admitted and the truncation message is still shown. -/
theorem C10_exact_cap_still_truncates_witness :
    admissibleVal 4 (.obj [("a", JVal.leaf), ("b", JVal.leaf)]) 0 = 2 ∧
    ((runWalk 2 4 (.obj [("a", JVal.leaf), ("b", JVal.leaf)])).nodes.length = 2 ∧
      (∀ maxN' : Nat, 2 ≤ maxN' →
        runWalk maxN' 4 (.obj [("a", JVal.leaf), ("b", JVal.leaf)])
          = runWalk 2 4 (.obj [("a", JVal.leaf), ("b", JVal.leaf)])) ∧
      truncatedMessage 2 (runWalk 2 4 (.obj [("a", JVal.leaf), ("b", JVal.leaf)]))
        = some ("Showing first " ++ toString 2 ++ " nodes")) :=
  ⟨by decide, C10_exact_cap_still_truncates 2 4
    (.obj [("a", JVal.leaf), ("b", JVal.leaf)]) (by decide)⟩

/-- Renaming of a builder node under a path prefix: the node the walk pushes
at path `path` differs from the one pushed at path `""` only in its id. -/
def prefixNode (path : String) (n : BNode) : BNode :=
  { n with id := path ++ "/" ++ n.id }

/-- A directory key that cannot clash with the `/`-separated identifier
scheme: nonempty and free of the separator. -/
def goodKey (s : String) : Bool :=
  !(s == "") && !(s.data.contains '/')

/-- Keys of one object are pairwise distinct (guaranteed for JavaScript
objects, whose keys are unique by construction). -/
def nodupKeys : List String → Bool
  | [] => true
  | k :: ks => !(ks.contains k) && nodupKeys ks

mutual
/-- Well-formed input: every object has pairwise-distinct keys (as any
JavaScript object does) and every key is nonempty and slash-free. -/
def wfVal : JVal → Bool
  | .leaf => true
  | .obj kvs => nodupKeys (kvs.map Prod.fst) && wfList kvs

/-- Well-formedness of a key/value list. -/
def wfList : List (String × JVal) → Bool
  | [] => true
  | (k, v) :: rest => goodKey k && wfVal v && wfList rest
end

/-- The identifier `i` lies in the subtree of key `k`: it is the key's own id
or a descendant id extending it with a slash. -/
def startsWithKey (k i : String) : Prop :=
  i = k ∨ ∃ r : String, i = k ++ "/" ++ r

theorem slash_cancel_chars (a b x y : List Char) (ha : '/' ∉ a) (hb : '/' ∉ b)
    (h : a ++ '/' :: x = b ++ '/' :: y) : a = b ∧ x = y := by
  induction a generalizing b with
  | nil =>
      cases b with
      | nil => simpa using h
      | cons c bs =>
          simp only [List.nil_append, List.cons_append, List.cons.injEq] at h
          exact absurd (h.1 ▸ List.mem_cons_self c bs) hb
  | cons c as ih =>
      cases b with
      | nil =>
          simp only [List.nil_append, List.cons_append, List.cons.injEq] at h
          exact absurd (h.1.symm ▸ List.mem_cons_self c as) ha
      | cons c' bs =>
          simp only [List.cons_append, List.cons.injEq] at h
          obtain ⟨hc, hrest⟩ := h
          have ha' : '/' ∉ as := fun hm => ha (List.mem_cons_of_mem c hm)
          have hb' : '/' ∉ bs := fun hm => hb (List.mem_cons_of_mem c' hm)
          obtain ⟨h1, h2⟩ := ih bs ha' hb' hrest
          exact ⟨by rw [hc, h1], h2⟩

theorem join_data (k r : String) :
    (k ++ "/" ++ r).data = k.data ++ '/' :: r.data := by
  simp [String.data_append]

theorem goodKey_no_slash {k : String} (h : goodKey k = true) : '/' ∉ k.data := by
  rw [goodKey, Bool.and_eq_true, Bool.not_eq_true', Bool.not_eq_true'] at h
  intro hm
  have hc : k.data.contains '/' = true :=
    List.contains_iff_exists_mem_beq.mpr ⟨'/', hm, by simp⟩
  rw [h.2] at hc
  exact Bool.false_ne_true hc

theorem goodKey_ne_empty {k : String} (h : goodKey k = true) : k ≠ "" := by
  rw [goodKey, Bool.and_eq_true, Bool.not_eq_true', Bool.not_eq_true'] at h
  intro he
  rw [he] at h
  simp at h

theorem join_cancel {k k' : String} (hk : goodKey k = true) (hk' : goodKey k' = true)
    (r r' : String) (h : k ++ "/" ++ r = k' ++ "/" ++ r') : k = k' ∧ r = r' := by
  have hd : (k ++ "/" ++ r).data = (k' ++ "/" ++ r').data := by rw [h]
  rw [join_data, join_data] at hd
  obtain ⟨h1, h2⟩ := slash_cancel_chars _ _ _ _ (goodKey_no_slash hk)
    (goodKey_no_slash hk') hd
  exact ⟨String.ext h1, String.ext h2⟩

theorem key_ne_join {k k' : String} (hk : goodKey k = true) (r : String) :
    k ≠ k' ++ "/" ++ r := by
  intro h
  apply goodKey_no_slash hk
  rw [show k.data = (k' ++ "/" ++ r).data from by rw [h], join_data]
  exact List.mem_append_right _ (List.mem_cons_self _ _)

theorem startsWithKey_unique {k k' i : String} (hk : goodKey k = true)
    (hk' : goodKey k' = true) (h1 : startsWithKey k i) (h2 : startsWithKey k' i) :
    k = k' := by
  rcases h1 with h1 | ⟨r, h1⟩ <;> rcases h2 with h2 | ⟨r', h2⟩
  · rw [← h1, ← h2]
  · exact absurd (h1.symm.trans h2) (key_ne_join hk r')
  · exact absurd (h2.symm.trans h1) (key_ne_join hk' r)
  · exact (join_cancel hk hk' r r' (h1.symm.trans h2)).1

theorem join_left_cancel (p : String) {a b : String}
    (h : p ++ "/" ++ a = p ++ "/" ++ b) : a = b := by
  have hd : (p ++ "/" ++ a).data = (p ++ "/" ++ b).data := by rw [h]
  rw [join_data, join_data] at hd
  exact String.ext (by simpa using List.append_cancel_left hd)

theorem prefixNode_comp (path key : String) (n : BNode) :
    prefixNode path (prefixNode key n) = prefixNode (path ++ "/" ++ key) n := by
  simp [prefixNode, String.append_assoc]

theorem wfVal_obj {kvs : List (String × JVal)} (h : wfVal (.obj kvs) = true) :
    nodupKeys (kvs.map Prod.fst) = true ∧ wfList kvs = true := by
  rw [wfVal, Bool.and_eq_true] at h
  exact h

theorem wfList_cons {k : String} {v : JVal} {rest : List (String × JVal)}
    (h : wfList ((k, v) :: rest) = true) :
    goodKey k = true ∧ wfVal v = true ∧ wfList rest = true := by
  rw [wfList, Bool.and_eq_true, Bool.and_eq_true] at h
  exact ⟨h.1.1, h.1.2, h.2⟩

theorem nodupKeys_cons {k : String} {ks : List String}
    (h : nodupKeys (k :: ks) = true) :
    k ∉ ks ∧ nodupKeys ks = true := by
  rw [nodupKeys, Bool.and_eq_true, Bool.not_eq_true'] at h
  refine ⟨fun hm => ?_, h.2⟩
  have hc : ks.contains k = true :=
    List.contains_iff_exists_mem_beq.mpr ⟨k, hm, by simp⟩
  rw [h.1] at hc
  exact Bool.false_ne_true hc

theorem walkStep_nodes (key : String) (isDir : Bool) (p : Option String)
    (d idx sib : Nat) (path : String) (st : WalkSt) :
    (walkStep key isDir p d idx sib path st).nodes
      = st.nodes ++
          [{ id := walkId path key, name := key,
             type := if isDir then "dir" else "file", depth := d,
             indexInParent := idx, siblingCount := sib }] := rfl

mutual
theorem walkVal_shift (maxN maxL : Nat) (v : JVal) (p p' : Option String) (d : Nat)
    (path : String) (st st' : WalkSt) (hpath : path ≠ "")
    (hc : st.count = st'.count) (hwf : wfVal v = true) :
    ∃ Δ : List BNode,
      (walkVal maxN maxL v p d path st).nodes = st.nodes ++ Δ.map (prefixNode path) ∧
      (walkVal maxN maxL v p' d "" st').nodes = st'.nodes ++ Δ ∧
      (walkVal maxN maxL v p d path st).count
        = (walkVal maxN maxL v p' d "" st').count := by
  match v with
  | .leaf =>
      refine ⟨[], ?_, ?_, ?_⟩
      · rw [walkVal_leaf]; simp
      · rw [walkVal_leaf]; simp
      · rw [walkVal_leaf, walkVal_leaf]; exact hc
  | .obj kvs =>
      by_cases h1 : maxN ≤ st.count
      · have h1' : maxN ≤ st'.count := by omega
        refine ⟨[], ?_, ?_, ?_⟩
        · rw [walkVal_obj_capped _ _ _ _ _ _ _ h1]; simp
        · rw [walkVal_obj_capped _ _ _ _ _ _ _ h1']; simp
        · rw [walkVal_obj_capped _ _ _ _ _ _ _ h1,
            walkVal_obj_capped _ _ _ _ _ _ _ h1']
          exact hc
      · have h1' : ¬ maxN ≤ st'.count := by omega
        by_cases h2 : maxL ≤ d
        · refine ⟨[], ?_, ?_, ?_⟩
          · rw [walkVal_obj_deep _ _ _ _ _ _ _ h1 h2]; simp
          · rw [walkVal_obj_deep _ _ _ _ _ _ _ h1' h2]; simp
          · rw [walkVal_obj_deep _ _ _ _ _ _ _ h1 h2,
              walkVal_obj_deep _ _ _ _ _ _ _ h1' h2]
            exact hc
        · rw [walkVal_obj_go _ _ _ _ _ _ _ h1 h2, walkVal_obj_go _ _ _ _ _ _ _ h1' h2]
          exact walkKeys_shift maxN maxL kvs kvs.length 0 p p' d path st st'
            hpath hc (wfVal_obj hwf).2

theorem walkKeys_shift (maxN maxL : Nat) (kvs : List (String × JVal))
    (sib idx : Nat) (p p' : Option String) (d : Nat) (path : String)
    (st st' : WalkSt) (hpath : path ≠ "") (hc : st.count = st'.count)
    (hwf : wfList kvs = true) :
    ∃ Δ : List BNode,
      (walkKeys maxN maxL kvs sib idx p d path st).nodes
          = st.nodes ++ Δ.map (prefixNode path) ∧
      (walkKeys maxN maxL kvs sib idx p' d "" st').nodes = st'.nodes ++ Δ ∧
      (walkKeys maxN maxL kvs sib idx p d path st).count
        = (walkKeys maxN maxL kvs sib idx p' d "" st').count := by
  match kvs with
  | [] =>
      refine ⟨[], ?_, ?_, ?_⟩
      · rw [walkKeys_nil]; simp
      · rw [walkKeys_nil]; simp
      · rw [walkKeys_nil, walkKeys_nil]; exact hc
  | (key, v) :: rest =>
      obtain ⟨hgood, hwfv, hwfrest⟩ := wfList_cons hwf
      by_cases h1 : maxN ≤ st.count
      · have h1' : maxN ≤ st'.count := by omega
        rw [walkKeys_cons_capped _ _ _ _ _ _ _ _ _ _ _ h1,
          walkKeys_cons_capped _ _ _ _ _ _ _ _ _ _ _ h1']
        exact walkKeys_shift maxN maxL rest sib (idx + 1) p p' d path st st'
          hpath hc hwfrest
      · have h1' : ¬ maxN ≤ st'.count := by omega
        have hid : walkId path key = path ++ "/" ++ key := by
          rw [walkId, if_neg hpath]
        have hid' : walkId "" key = key := by rw [walkId, if_pos rfl]
        cases v with
        | leaf =>
            rw [walkKeys_cons_leaf _ _ _ _ _ _ _ _ _ _ h1,
              walkKeys_cons_leaf _ _ _ _ _ _ _ _ _ _ h1']
            have hcc : (walkStep key false p d idx sib path st).count
                = (walkStep key false p' d idx sib "" st').count := by
              rw [walkStep_count, walkStep_count, hc]
            obtain ⟨Δ, hA, hB, hC⟩ := walkKeys_shift maxN maxL rest sib (idx + 1)
              p p' d path _ _ hpath hcc hwfrest
            refine ⟨{ id := key, name := key, type := "file", depth := d,
                      indexInParent := idx, siblingCount := sib } :: Δ, ?_, ?_, hC⟩
            · rw [hA, walkStep_nodes]
              simp [prefixNode, hid]
            · rw [hB, walkStep_nodes]
              simp [hid']
        | obj kvs2 =>
            rw [walkKeys_cons_obj _ _ _ _ _ _ _ _ _ _ _ h1,
              walkKeys_cons_obj _ _ _ _ _ _ _ _ _ _ _ h1']
            rw [hid, hid']
            have hkey : key ≠ "" := by
              intro he
              exact goodKey_ne_empty hgood he
            have hjoin_ne : path ++ "/" ++ key ≠ "" := by
              intro he
              have : (path ++ "/" ++ key).data = ("" : String).data := by rw [he]
              rw [join_data] at this
              simp at this
            obtain ⟨Δ1, hA1, hB1, hC1⟩ := walkVal_shift maxN maxL (.obj kvs2)
              (some (path ++ "/" ++ key)) none (d + 1) (path ++ "/" ++ key)
              (walkStep key true p d idx sib path st)
              { nodes := [], edges := [],
                count := (walkStep key true p d idx sib path st).count }
              hjoin_ne rfl hwfv
            obtain ⟨Δ2, hA2, hB2, hC2⟩ := walkVal_shift maxN maxL (.obj kvs2)
              (some key) none (d + 1) key
              (walkStep key true p' d idx sib "" st')
              { nodes := [], edges := [],
                count := (walkStep key true p d idx sib path st).count }
              hkey (by rw [walkStep_count, walkStep_count, hc]) hwfv
            have hΔeq : Δ1 = Δ2 := by
              have := hB1.symm.trans hB2
              simpa using this
            have hcc2 : (walkVal maxN maxL (.obj kvs2) (some (path ++ "/" ++ key))
                  (d + 1) (path ++ "/" ++ key)
                  (walkStep key true p d idx sib path st)).count
                = (walkVal maxN maxL (.obj kvs2) (some key) (d + 1) key
                  (walkStep key true p' d idx sib "" st')).count := by
              rw [hC1, hC2]
            obtain ⟨Δ3, hA3, hB3, hC3⟩ := walkKeys_shift maxN maxL rest sib (idx + 1)
              p p' d path _ _ hpath hcc2 hwfrest
            refine ⟨{ id := key, name := key, type := "dir", depth := d,
                      indexInParent := idx, siblingCount := sib }
                  :: (Δ2.map (prefixNode key) ++ Δ3), ?_, ?_, hC3⟩
            · rw [hA3, hA1, walkStep_nodes, ← hΔeq]
              have hmapmap : (Δ1.map (prefixNode key)).map (prefixNode path)
                  = Δ1.map (prefixNode (path ++ "/" ++ key)) := by
                rw [List.map_map]
                exact List.map_congr_left fun n _ => prefixNode_comp path key n
              simp [prefixNode, hid, hmapmap]
            · rw [hB3, hA2, walkStep_nodes]
              simp [hid']
end

theorem wfList_mem {rest : List (String × JVal)} (h : wfList rest = true) :
    ∀ kv ∈ rest, goodKey kv.1 = true := by
  induction rest with
  | nil => intro kv hm; exact absurd hm (List.not_mem_nil kv)
  | cons kv0 rest' ih =>
      obtain ⟨k0, v0⟩ := kv0
      obtain ⟨hg, _, hr⟩ := wfList_cons h
      intro kv hm
      rcases List.mem_cons.mp hm with hm | hm
      · rw [hm]; exact hg
      · exact ih hr kv hm

theorem not_startsWithKey_of_good {key k' : String} (hgood : goodKey key = true)
    (hk' : goodKey k' = true) (hne : k' ≠ key) : ¬ startsWithKey k' key := by
  intro hs
  rcases hs with hs | ⟨r, hs⟩
  · exact hne hs.symm
  · exact key_ne_join hgood r hs

mutual
theorem walkVal_ids_nodup (maxN maxL : Nat) (v : JVal) (p : Option String)
    (d : Nat) (st : WalkSt) (hwf : wfVal v = true) (hemp : st.nodes = []) :
    (walkVal maxN maxL v p d "" st).nodes.Pairwise
      (fun n1 n2 => n1.id ≠ n2.id) := by
  match v with
  | .leaf =>
      rw [walkVal_leaf, hemp]
      exact List.Pairwise.nil
  | .obj kvs =>
      by_cases h1 : maxN ≤ st.count
      · rw [walkVal_obj_capped _ _ _ _ _ _ _ h1, hemp]
        exact List.Pairwise.nil
      · by_cases h2 : maxL ≤ d
        · rw [walkVal_obj_deep _ _ _ _ _ _ _ h1 h2, hemp]
          exact List.Pairwise.nil
        · rw [walkVal_obj_go _ _ _ _ _ _ _ h1 h2]
          exact walkKeys_ids_nodup maxN maxL kvs kvs.length 0 p d st
            (wfVal_obj hwf).2 (wfVal_obj hwf).1
            (by rw [hemp]; exact List.Pairwise.nil)
            (by rw [hemp]; intro n hn; exact absurd hn (List.not_mem_nil n))

theorem walkKeys_ids_nodup (maxN maxL : Nat) (kvs : List (String × JVal))
    (sib idx : Nat) (p : Option String) (d : Nat) (st : WalkSt)
    (hwfL : wfList kvs = true) (hnd : nodupKeys (kvs.map Prod.fst) = true)
    (hpw : st.nodes.Pairwise (fun n1 n2 => n1.id ≠ n2.id))
    (hsep : ∀ n ∈ st.nodes, ∀ kv ∈ kvs, ¬ startsWithKey kv.1 n.id) :
    (walkKeys maxN maxL kvs sib idx p d "" st).nodes.Pairwise
      (fun n1 n2 => n1.id ≠ n2.id) := by
  match kvs with
  | [] =>
      rw [walkKeys_nil]
      exact hpw
  | (key, v) :: rest =>
      obtain ⟨hgood, hwfv, hwfrest⟩ := wfList_cons hwfL
      have hnd' := nodupKeys_cons (by simpa using hnd)
      have hkeyrest : ∀ kv ∈ rest, kv.1 ≠ key := by
        intro kv hm he
        exact hnd'.1 (he ▸ List.mem_map_of_mem Prod.fst hm)
      by_cases h1 : maxN ≤ st.count
      · rw [walkKeys_cons_capped _ _ _ _ _ _ _ _ _ _ _ h1]
        exact walkKeys_ids_nodup maxN maxL rest sib (idx + 1) p d st
          hwfrest hnd'.2 hpw
          (fun n hn kv hm => hsep n hn kv (List.mem_cons_of_mem _ hm))
      · have hkey : key ≠ "" := goodKey_ne_empty hgood
        have hidk : walkId "" key = key := by rw [walkId, if_pos rfl]
        cases v with
        | leaf =>
            rw [walkKeys_cons_leaf _ _ _ _ _ _ _ _ _ _ h1]
            refine walkKeys_ids_nodup maxN maxL rest sib (idx + 1) p d _
              hwfrest hnd'.2 ?_ ?_
            · rw [walkStep_nodes, hidk]
              rw [List.pairwise_append]
              refine ⟨hpw, List.pairwise_singleton _ _, ?_⟩
              intro a ha b hb
              rw [List.mem_singleton] at hb
              subst hb
              intro he
              exact hsep a ha (key, .leaf) (List.mem_cons_self _ _) (Or.inl he)
            · rw [walkStep_nodes, hidk]
              intro n hn kv hm
              rcases List.mem_append.mp hn with hn | hn
              · exact hsep n hn kv (List.mem_cons_of_mem _ hm)
              · rw [List.mem_singleton] at hn
                subst hn
                exact not_startsWithKey_of_good hgood
                  (wfList_mem hwfrest kv hm) (hkeyrest kv hm)
        | obj kvs2 =>
            rw [walkKeys_cons_obj _ _ _ _ _ _ _ _ _ _ _ h1, hidk]
            obtain ⟨Δ, hA, hB, _⟩ := walkVal_shift maxN maxL (.obj kvs2)
              (some key) none (d + 1) key
              (walkStep key true p d idx sib "" st)
              { nodes := [], edges := [],
                count := (walkStep key true p d idx sib "" st).count }
              hkey rfl hwfv
            have hΔpw : Δ.Pairwise (fun n1 n2 => n1.id ≠ n2.id) := by
              have := walkVal_ids_nodup maxN maxL (.obj kvs2) none (d + 1)
                { nodes := [], edges := [],
                  count := (walkStep key true p d idx sib "" st).count }
                hwfv rfl
              rw [hB] at this
              simpa using this
            refine walkKeys_ids_nodup maxN maxL rest sib (idx + 1) p d _
              hwfrest hnd'.2 ?_ ?_
            · rw [hA, walkStep_nodes, hidk, List.append_assoc]
              rw [List.pairwise_append]
              refine ⟨hpw, ?_, ?_⟩
              · rw [List.pairwise_append]
                refine ⟨List.pairwise_singleton _ _, ?_, ?_⟩
                · rw [List.pairwise_map]
                  refine hΔpw.imp ?_
                  intro a b hab he
                  exact hab (join_left_cancel key he)
                · intro a ha b hb
                  rw [List.mem_singleton] at ha
                  subst ha
                  rw [List.mem_map] at hb
                  obtain ⟨n0, _, hn0⟩ := hb
                  rw [← hn0]
                  exact key_ne_join hgood n0.id
              · intro a ha b hb
                rcases List.mem_append.mp hb with hb | hb
                · rw [List.mem_singleton] at hb
                  subst hb
                  intro he
                  exact hsep a ha (key, .obj kvs2) (List.mem_cons_self _ _)
                    (Or.inl he)
                · rw [List.mem_map] at hb
                  obtain ⟨n0, _, hn0⟩ := hb
                  rw [← hn0]
                  intro he
                  exact hsep a ha (key, .obj kvs2) (List.mem_cons_self _ _)
                    (Or.inr ⟨n0.id, he⟩)
            · rw [hA, walkStep_nodes, hidk, List.append_assoc]
              intro n hn kv hm
              rcases List.mem_append.mp hn with hn | hn
              · exact hsep n hn kv (List.mem_cons_of_mem _ hm)
              · rcases List.mem_append.mp hn with hn | hn
                · rw [List.mem_singleton] at hn
                  subst hn
                  exact not_startsWithKey_of_good hgood
                    (wfList_mem hwfrest kv hm) (hkeyrest kv hm)
                · rw [List.mem_map] at hn
                  obtain ⟨n0, _, hn0⟩ := hn
                  rw [← hn0]
                  intro hs
                  have hs2 : startsWithKey key (prefixNode key n0).id :=
                    Or.inr ⟨n0.id, rfl⟩
                  have := startsWithKey_unique (wfList_mem hwfrest kv hm)
                    hgood hs hs2
                  exact hkeyrest kv hm this
end

/-- The second builder scenario, violating the identifier assumption: the key
`"a/b"` at the root collides with the path id of `"b"` inside `"a"`. -/
def collideInput : JVal := .obj [("a/b", .leaf), ("a", .obj [("b", .leaf)])]

/-- C1 counterexample: with input `{"a/b": null, "a": {"b": null}}` (accepted
by the builder — both are legal JavaScript object keys) the node list contains
two distinct nodes with the same id "a/b", so ids are not pairwise distinct. -/
theorem C1_counterexample_slash_key :
    ¬ (∀ n1 ∈ (runWalk 100000 4 collideInput).nodes,
        ∀ n2 ∈ (runWalk 100000 4 collideInput).nodes,
          n1 ≠ n2 → n1.id ≠ n2.id) := by
  decide

/-- C1 (amended): if every key of the input is nonempty and contains no "/"
(and keys are unique within each object, as JavaScript guarantees), then the
node list produced by the walk has pairwise-distinct identifiers. -/
theorem C1_ids_unique (maxN maxL : Nat) (dm : JVal) (hwf : wfVal dm = true) :
    ∀ n1 ∈ (runWalk maxN maxL dm).nodes, ∀ n2 ∈ (runWalk maxN maxL dm).nodes,
      n1 ≠ n2 → n1.id ≠ n2.id := by
  have hpw : (runWalk maxN maxL dm).nodes.Pairwise
      (fun n1 n2 => n1.id ≠ n2.id) :=
    walkVal_ids_nodup maxN maxL dm none 0 WalkSt.init hwf rfl
  intro n1 h1 n2 h2 hne
  have hsym : Symmetric (fun n1 n2 : BNode => n1.id ≠ n2.id) := by
    intro a b hab
    exact hab.symm
  exact List.Pairwise.forall hsym hpw h1 h2 hne

/-- Witness for C1: the scenario input has well-formed keys and its three
node ids "a", "a/b", "a/c" are pairwise distinct. -/
theorem C1_ids_unique_witness :
    wfVal scenarioInput = true ∧
    (∀ n1 ∈ (runWalk 100 10 scenarioInput).nodes,
      ∀ n2 ∈ (runWalk 100 10 scenarioInput).nodes,
        n1 ≠ n2 → n1.id ≠ n2.id) :=
  ⟨by decide, C1_ids_unique 100 10 scenarioInput (by decide)⟩

/-!
Depth-tiled Cartesian layout (second variant of src/design3/index.js,
STEP 4 – STEP 6).  JavaScript numbers are modelled as elements of a linear
ordered field; the executable instance is `ℚ` and the `minSpacing` formula
(which needs a square root) lives in `ℝ`.
-/

/-- The children shape of the built node graph, as the recursive `layout`
function consumes it (only the `children` structure matters for positions). -/
inductive RTree where
  | node : List RTree → RTree

/-- A node after layout: its `x`, its `y`, and its laid-out children. -/
inductive PTree (α : Type) where
  | mk : α → α → List (PTree α) → PTree α

/-- The `x` position of a laid-out node. -/
def PTree.x {α : Type} : PTree α → α
  | .mk a _ _ => a

/-- The `y` position of a laid-out node. -/
def PTree.y {α : Type} : PTree α → α
  | .mk _ b _ => b

/-- The laid-out children of a node. -/
def PTree.kids {α : Type} : PTree α → List (PTree α)
  | .mk _ _ ks => ks

@[simp] theorem PTree.x_mk {α : Type} (a b : α) (ks : List (PTree α)) :
    (PTree.mk a b ks).x = a := rfl

@[simp] theorem PTree.y_mk {α : Type} (a b : α) (ks : List (PTree α)) :
    (PTree.mk a b ks).y = b := rfl

@[simp] theorem PTree.kids_mk {α : Type} (a b : α) (ks : List (PTree α)) :
    (PTree.mk a b ks).kids = ks := rfl

variable {α : Type} [LinearOrderedField α]

instance : Inhabited (PTree α) := ⟨.mk 0 0 []⟩

/-- Adds a shift to a node's own `x` only — the `node.children[j].x += shift`
statement of the sibling-collision repair (descendants are not touched). -/
def bumpX (sh : α) : PTree α → PTree α
  | .mk a b ks => .mk (a + sh) b ks

/-- The sibling-collision repair loop of `layout` (lines 521–534): walks
adjacent pairs left to right; whenever a pair is closer than `minSpacing` it
shifts the `x` of this and every subsequent sibling (the sibling node itself,
not its subtree) and raises the global cursor to
`max(xCursor, lastSibling.x + minSpacing)`. -/
def repairGo (s : α) (xprev : α) (ts : List (PTree α)) (c : α) :
    List (PTree α) × α :=
  match ts with
  | [] => ([], c)
  | t :: rest =>
      if t.x - xprev < s then
        let sh := s - (t.x - xprev)
        let t' := bumpX sh t
        let rest' := rest.map (bumpX sh)
        let c' := max c (((t' :: rest').getLast (List.cons_ne_nil _ _)).x + s)
        let r := repairGo s t'.x rest' c'
        (t' :: r.1, r.2)
      else
        let r := repairGo s t.x rest c
        (t :: r.1, r.2)
termination_by ts.length
decreasing_by
  · simp [List.length_map]
  · simp

/-- The repair loop over a whole children array (the first child is the
initial `current` and is never shifted). -/
def repair (s : α) (ts : List (PTree α)) (c : α) : List (PTree α) × α :=
  match ts with
  | [] => ([], c)
  | t :: rest =>
      let r := repairGo s t.x rest c
      (t :: r.1, r.2)

mutual
/-- The recursive `layout(node)` of the Cartesian variant: `y = depth*yStep`;
a childless node takes the cursor position and advances the cursor by
`minSpacing`; otherwise children are laid out first, the sibling-collision
repair runs, and the node is centered over its first and last child. -/
def layoutNode (s yStep : α) (t : RTree) (depth : Nat) (c : α) : PTree α × α :=
  match t with
  | .node kids =>
      match kids with
      | [] => (.mk c ((depth : α) * yStep) [], c + s)
      | k0 :: krest =>
          let lk := layoutKids s yStep (k0 :: krest) (depth + 1) c
          let rp := repair s lk.1 lk.2
          let ps := rp.1
          let x :=
            ((ps.headI.x) + ((ps.getLastI).x)) / 2
          (.mk x ((depth : α) * yStep) ps, rp.2)

/-- Sequential layout of a children array sharing the global cursor
(`node.children.forEach(layout)`). -/
def layoutKids (s yStep : α) (ts : List RTree) (depth : Nat) (c : α) :
    List (PTree α) × α :=
  match ts with
  | [] => ([], c)
  | t :: rest =>
      let p := layoutNode s yStep t depth c
      let pr := layoutKids s yStep rest depth p.2
      (p.1 :: pr.1, pr.2)
end

/-- The recursive `shiftSubtree(node, shiftAmount)` of STEP 6: shifts the
node and all of its descendants by the same amount. -/
def shiftSubtree (sh : α) : PTree α → PTree α
  | .mk a b ks => .mk (a + sh) b (ks.attach.map fun q => shiftSubtree sh q.1)
decreasing_by
  simp only [PTree.mk.sizeOf_spec]
  have := List.sizeOf_lt_of_mem q.2
  omega

/-- Insertion into an `x`-sorted list (used to model `roots.sort`). -/
def insertByX (t : PTree α) : List (PTree α) → List (PTree α)
  | [] => [t]
  | u :: us => if t.x ≤ u.x then t :: u :: us else u :: insertByX t us

/-- Model of `roots.sort(function(a, b) { return a.x - b.x; })`: a sort by
ascending `x` (stable insertion sort; any correct sort agrees on the
strictly-increasing lists this pass receives). -/
def sortByX : List (PTree α) → List (PTree α)
  | [] => []
  | t :: ts => insertByX t (sortByX ts)

/-- The root-level collision pass of STEP 6: walks adjacent sorted roots and,
whenever two are closer than `minSpacing`, shifts this and every subsequent
root subtree (via `shiftSubtree`) rightward. -/
def rootRepairGo (s : α) (xprev : α) (ts : List (PTree α)) : List (PTree α) :=
  match ts with
  | [] => []
  | t :: rest =>
      if t.x - xprev < s then
        let sh := s - (t.x - xprev)
        let t' := shiftSubtree sh t
        t' :: rootRepairGo s t'.x (rest.map (shiftSubtree sh))
      else
        t :: rootRepairGo s t.x rest
termination_by ts.length
decreasing_by
  · simp [List.length_map]
  · simp

/-- STEP 6 in full: sort the roots by `x`, then run the collision pass. -/
def rootRepair (s : α) (ts : List (PTree α)) : List (PTree α) :=
  match sortByX ts with
  | [] => []
  | t :: rest => t :: rootRepairGo s t.x rest

/-- The whole Cartesian layout pipeline before coordinate normalization:
roots laid out sequentially from cursor 0, then the STEP 6 root pass. -/
def layoutForest (s yStep : α) (ts : List RTree) : List (PTree α) :=
  rootRepair s (layoutKids s yStep ts 0 0).1

/-- All nodes of a laid-out subtree, the node itself first. -/
def subtrees : PTree α → List (PTree α)
  | .mk a b ks => .mk a b ks :: ks.attach.flatMap fun q => subtrees q.1
decreasing_by
  simp only [PTree.mk.sizeOf_spec]
  have := List.sizeOf_lt_of_mem q.2
  omega

/-- The minimum sibling spacing of STEP 4:
`max(0.015, 0.015 * max(1, sqrt(nodeCount / 500)))`. -/
noncomputable def minSpacing (nodeCount : Nat) : ℝ :=
  max 0.015 (0.015 * max 1 (Real.sqrt ((nodeCount : ℝ) / 500)))

theorem minSpacing_nonneg (n : Nat) : (0 : ℝ) ≤ minSpacing n := by
  unfold minSpacing
  have : (0 : ℝ) ≤ 0.015 := by norm_num
  exact le_trans this (le_max_left _ _)

theorem subtrees_mk (a b : α) (ks : List (PTree α)) :
    subtrees (.mk a b ks) = .mk a b ks :: ks.flatMap subtrees := by
  rw [subtrees]
  congr 1
  simp

theorem mem_subtrees_mk {q : PTree α} {a b : α} {ks : List (PTree α)} :
    q ∈ subtrees (.mk a b ks) ↔ q = .mk a b ks ∨ ∃ p ∈ ks, q ∈ subtrees p := by
  rw [subtrees_mk, List.mem_cons, List.mem_flatMap]

theorem repairGo_no_op (s : α) (ts : List (PTree α)) :
    ∀ (xprev c : α),
      List.Chain' (fun a b => a.x + s ≤ b.x) ts →
      (∀ t0 ∈ ts.head?, xprev + s ≤ t0.x) →
      repairGo s xprev ts c = (ts, c) := by
  induction ts with
  | nil =>
      intro xprev c _ _
      rw [repairGo]
  | cons t rest ih =>
      intro xprev c hchain hhead
      have hx : xprev + s ≤ t.x := hhead t (by simp)
      rw [repairGo]
      rw [if_neg (by push_neg; linarith)]
      have hrest := ih t.x c hchain.tail ?_
      · rw [hrest]
      · intro t0 ht0
        cases rest with
        | nil => simp at ht0
        | cons u us =>
            simp at ht0
            rw [List.chain'_cons] at hchain
            rw [← ht0]
            exact hchain.1

theorem repair_no_op (s : α) (ts : List (PTree α)) (c : α)
    (hchain : List.Chain' (fun a b => a.x + s ≤ b.x) ts) :
    repair s ts c = (ts, c) := by
  cases ts with
  | nil => rw [repair]
  | cons t rest =>
      rw [repair]
      have h := repairGo_no_op s rest t.x c hchain.tail ?_
      · rw [h]
      · intro t0 ht0
        cases rest with
        | nil => simp at ht0
        | cons u us =>
            simp at ht0
            rw [List.chain'_cons] at hchain
            rw [← ht0]
            exact hchain.1

theorem insertByX_sorted_cons (t : PTree α) (ts : List (PTree α))
    (h : ∀ u ∈ ts.head?, t.x ≤ u.x) : insertByX t ts = t :: ts := by
  cases ts with
  | nil => rw [insertByX]
  | cons u us =>
      rw [insertByX]
      rw [if_pos (h u (by simp))]

theorem sortByX_sorted_id (ts : List (PTree α))
    (h : List.Chain' (fun a b => a.x ≤ b.x) ts) : sortByX ts = ts := by
  induction ts with
  | nil => rw [sortByX]
  | cons t rest ih =>
      rw [sortByX, ih h.tail]
      refine insertByX_sorted_cons t rest ?_
      intro u hu
      cases rest with
      | nil => simp at hu
      | cons v vs =>
          simp at hu
          rw [List.chain'_cons] at h
          rw [← hu]
          exact h.1

theorem rootRepairGo_no_op (s : α) (ts : List (PTree α)) :
    ∀ xprev : α,
      List.Chain' (fun a b => a.x + s ≤ b.x) ts →
      (∀ t0 ∈ ts.head?, xprev + s ≤ t0.x) →
      rootRepairGo s xprev ts = ts := by
  induction ts with
  | nil =>
      intro xprev _ _
      rw [rootRepairGo]
  | cons t rest ih =>
      intro xprev hchain hhead
      have hx : xprev + s ≤ t.x := hhead t (by simp)
      rw [rootRepairGo]
      rw [if_neg (by push_neg; linarith)]
      rw [ih t.x hchain.tail ?_]
      intro t0 ht0
      cases rest with
      | nil => simp at ht0
      | cons u us =>
          simp at ht0
          rw [List.chain'_cons] at hchain
          rw [← ht0]
          exact hchain.1

theorem rootRepair_no_op (s : α) (ts : List (PTree α)) (hs : 0 ≤ s)
    (hchain : List.Chain' (fun a b => a.x + s ≤ b.x) ts) :
    rootRepair s ts = ts := by
  have hsorted : sortByX ts = ts :=
    sortByX_sorted_id ts (hchain.imp (fun a b hab => by linarith))
  rw [rootRepair, hsorted]
  cases ts with
  | nil => rfl
  | cons t rest =>
      show t :: rootRepairGo s t.x rest = t :: rest
      congr 1
      refine rootRepairGo_no_op s rest t.x hchain.tail ?_
      intro t0 ht0
      cases rest with
      | nil => simp at ht0
      | cons u us =>
          simp at ht0
          rw [List.chain'_cons] at hchain
          rw [← ht0]
          exact hchain.1

theorem getLastI_cons_cons (a b : PTree α) (l : List (PTree α)) :
    (a :: b :: l).getLastI = (b :: l).getLastI := by
  rw [List.getLastI_eq_getLast?, List.getLastI_eq_getLast?, List.getLast?_cons_cons]

theorem getLastI_mem (t : PTree α) (ts : List (PTree α)) :
    (t :: ts).getLastI ∈ t :: ts := by
  induction ts generalizing t with
  | nil => simp [List.getLastI]
  | cons u us ih =>
      rw [getLastI_cons_cons]
      exact List.mem_cons_of_mem t (ih u)

theorem chain_head_le_getLastI (s : α) (hs : 0 ≤ s) (ts : List (PTree α)) :
    ∀ t : PTree α, List.Chain' (fun a b => a.x + s ≤ b.x) (t :: ts) →
      t.x ≤ ((t :: ts).getLastI).x := by
  induction ts with
  | nil => intro t _; simp [List.getLastI]
  | cons u us ih =>
      intro t h
      rw [getLastI_cons_cons]
      rw [List.chain'_cons] at h
      have h2 := ih u h.2
      have h1 := h.1
      linarith

theorem layoutKids_fst_ne_nil (s yStep : α) (t : RTree) (rest : List RTree)
    (d : Nat) (c : α) : (layoutKids s yStep (t :: rest) d c).1 ≠ [] := by
  rw [layoutKids]
  simp

mutual
theorem layoutNode_inv (s yStep : α) (hs : 0 ≤ s) (t : RTree) (d : Nat) (c : α) :
    c ≤ (layoutNode s yStep t d c).1.x ∧
    (layoutNode s yStep t d c).1.x + s ≤ (layoutNode s yStep t d c).2 ∧
    ∀ q ∈ subtrees (layoutNode s yStep t d c).1,
      List.Chain' (fun a b => a.x + s ≤ b.x) q.kids := by
  match t with
  | .node [] =>
      rw [layoutNode]
      refine ⟨le_refl c, le_refl (c + s), ?_⟩
      intro q hq
      rw [show (PTree.mk c ((d : α) * yStep) [] : PTree α)
          = .mk c ((d : α) * yStep) [] from rfl, mem_subtrees_mk] at hq
      rcases hq with hq | ⟨p, hp, _⟩
      · subst hq; exact List.chain'_nil
      · exact absurd hp (List.not_mem_nil p)
  | .node (k0 :: krest) =>
      rw [layoutNode]
      obtain ⟨hall, hchain, hcle⟩ := layoutKids_inv s yStep hs (k0 :: krest) (d + 1) c
      rw [repair_no_op s _ _ hchain]
      simp only
      obtain ⟨p0, ps', hshape⟩ :
          ∃ p0 ps', (layoutKids s yStep (k0 :: krest) (d + 1) c).1 = p0 :: ps' := by
        cases hsh : (layoutKids s yStep (k0 :: krest) (d + 1) c).1 with
        | nil => exact absurd hsh (layoutKids_fst_ne_nil s yStep k0 krest (d + 1) c)
        | cons a l => exact ⟨a, l, rfl⟩
      rw [hshape]
      rw [hshape] at hall hchain
      have hp0 := hall p0 (List.mem_cons_self _ _)
      have hlast := hall ((p0 :: ps').getLastI) (getLastI_mem p0 ps')
      have hhl : p0.x ≤ ((p0 :: ps').getLastI).x :=
        chain_head_le_getLastI s hs ps' p0 hchain
      simp only [List.headI_cons]
      refine ⟨?_, ?_, ?_⟩
      · have := hp0.1
        simp only [PTree.x_mk]
        linarith
      · have := hlast.2.1
        simp only [PTree.x_mk]
        linarith
      · intro q hq
        rw [mem_subtrees_mk] at hq
        rcases hq with hq | ⟨p, hp, hqp⟩
        · subst hq
          simpa using hchain
        · exact (hall p hp).2.2 q hqp

theorem layoutKids_inv (s yStep : α) (hs : 0 ≤ s) (ts : List RTree) (d : Nat)
    (c : α) :
    (∀ p ∈ (layoutKids s yStep ts d c).1,
        c ≤ p.x ∧ p.x + s ≤ (layoutKids s yStep ts d c).2 ∧
        ∀ q ∈ subtrees p, List.Chain' (fun a b => a.x + s ≤ b.x) q.kids) ∧
    List.Chain' (fun a b => a.x + s ≤ b.x) (layoutKids s yStep ts d c).1 ∧
    c ≤ (layoutKids s yStep ts d c).2 := by
  match ts with
  | [] =>
      rw [layoutKids]
      refine ⟨?_, List.chain'_nil, le_refl c⟩
      intro p hp
      exact absurd hp (List.not_mem_nil p)
  | t :: rest =>
      rw [layoutKids]
      obtain ⟨h1, h2, h3⟩ := layoutNode_inv s yStep hs t d c
      obtain ⟨hall, hchain, hcle⟩ :=
        layoutKids_inv s yStep hs rest d (layoutNode s yStep t d c).2
      simp only
      refine ⟨?_, ?_, ?_⟩
      · intro p hp
        rcases List.mem_cons.mp hp with hp | hp
        · subst hp
          exact ⟨h1, by linarith, h3⟩
        · obtain ⟨ha, hb, hct⟩ := hall p hp
          exact ⟨by linarith, hb, hct⟩
      · rw [List.chain'_cons']
        refine ⟨?_, hchain⟩
        intro b hb
        have hbmem : b ∈ (layoutKids s yStep rest d (layoutNode s yStep t d c).2).1 :=
          List.mem_of_mem_head? hb
        have := (hall b hbmem).1
        linarith
      · linarith
end

/-- C2: In the depth-tiled Cartesian layout, after the sibling-collision
repair pass completes (and before the final normalization), every pair of
adjacent siblings in layout order satisfies
`x(next) - x(current) ≥ minSpacing`, with
`minSpacing = max(0.015, 0.015 * max(1, sqrt(nodeCount/500)))`. -/
theorem C2_sibling_spacing (n : Nat) (yStep : ℝ) (ts : List RTree) :
    ∀ p ∈ layoutForest (minSpacing n) yStep ts, ∀ q ∈ subtrees p,
      List.Chain' (fun a b => minSpacing n ≤ b.x - a.x) q.kids := by
  obtain ⟨hall, hchain, _⟩ :=
    layoutKids_inv (minSpacing n) yStep (minSpacing_nonneg n) ts 0 0
  rw [layoutForest, rootRepair_no_op _ _ (minSpacing_nonneg n) hchain]
  intro p hp q hq
  exact ((hall p hp).2.2 q hq).imp (fun a b hab => by linarith)

/-- Witness for C2: the single-leaf forest lays out as one node at the
cursor origin, whose (empty) children trivially satisfy the spacing bound. -/
theorem C2_sibling_spacing_witness :
    PTree.mk (0 : ℝ) 0 [] ∈ layoutForest (minSpacing 1) (1 : ℝ) [RTree.node []] ∧
    PTree.mk (0 : ℝ) 0 [] ∈ subtrees (PTree.mk (0 : ℝ) 0 []) ∧
    List.Chain' (fun a b => minSpacing 1 ≤ b.x - a.x)
      (PTree.mk (0 : ℝ) 0 []).kids := by
  have hlist : layoutForest (minSpacing 1) (1 : ℝ) [RTree.node []]
      = [PTree.mk 0 0 []] := by
    rw [layoutForest, layoutKids, layoutNode, layoutKids]
    simp only [Nat.cast_zero, zero_mul]
    rw [rootRepair]
    rw [show sortByX [PTree.mk (0 : ℝ) 0 []] = [PTree.mk (0 : ℝ) 0 []] from by
      rw [sortByX, sortByX, insertByX]]
    show PTree.mk (0 : ℝ) 0 []
        :: rootRepairGo (minSpacing 1) (PTree.mk (0 : ℝ) 0 []).x [] = _
    have hgo : rootRepairGo (minSpacing 1) (PTree.mk (0 : ℝ) 0 []).x
        ([] : List (PTree ℝ)) = [] := by
      rw [rootRepairGo.eq_def]
    rw [hgo]
  have hp : PTree.mk (0 : ℝ) 0 []
      ∈ layoutForest (minSpacing 1) (1 : ℝ) [RTree.node []] := by
    rw [hlist]
    exact List.mem_singleton_self _
  have hq : PTree.mk (0 : ℝ) 0 [] ∈ subtrees (PTree.mk (0 : ℝ) 0 []) := by
    rw [subtrees_mk]
    simp
  exact ⟨hp, hq, C2_sibling_spacing 1 1 [RTree.node []] _ hp _ hq⟩

mutual
/-- Comparison variant of `layoutNode` with the sibling-collision repair pass
removed, used to express that the repair never fires. -/
def layoutNodeNR (s yStep : α) (t : RTree) (depth : Nat) (c : α) :
    PTree α × α :=
  match t with
  | .node kids =>
      match kids with
      | [] => (.mk c ((depth : α) * yStep) [], c + s)
      | k0 :: krest =>
          let lk := layoutKidsNR s yStep (k0 :: krest) (depth + 1) c
          let x := ((lk.1.headI.x) + ((lk.1.getLastI).x)) / 2
          (.mk x ((depth : α) * yStep) lk.1, lk.2)

/-- Comparison variant of `layoutKids` without the repair pass. -/
def layoutKidsNR (s yStep : α) (ts : List RTree) (depth : Nat) (c : α) :
    List (PTree α) × α :=
  match ts with
  | [] => ([], c)
  | t :: rest =>
      let p := layoutNodeNR s yStep t depth c
      let pr := layoutKidsNR s yStep rest depth p.2
      (p.1 :: pr.1, pr.2)
end

/-- Comparison variant of the whole pipeline with both collision passes
removed (the sort of STEP 6 is kept). -/
def layoutForestNR (s yStep : α) (ts : List RTree) : List (PTree α) :=
  sortByX (layoutKidsNR s yStep ts 0 0).1

mutual
theorem layoutNode_eq_NR (s yStep : α) (hs : 0 ≤ s) (t : RTree) (d : Nat)
    (c : α) : layoutNode s yStep t d c = layoutNodeNR s yStep t d c := by
  match t with
  | .node [] => rw [layoutNode, layoutNodeNR]
  | .node (k0 :: krest) =>
      rw [layoutNode, layoutNodeNR]
      obtain ⟨_, hchain, _⟩ := layoutKids_inv s yStep hs (k0 :: krest) (d + 1) c
      rw [repair_no_op s _ _ hchain]
      rw [layoutKids_eq_NR s yStep hs (k0 :: krest) (d + 1) c]

theorem layoutKids_eq_NR (s yStep : α) (hs : 0 ≤ s) (ts : List RTree) (d : Nat)
    (c : α) : layoutKids s yStep ts d c = layoutKidsNR s yStep ts d c := by
  match ts with
  | [] => rw [layoutKids, layoutKidsNR]
  | t :: rest =>
      rw [layoutKids, layoutKidsNR]
      rw [layoutNode_eq_NR s yStep hs t d c,
        layoutKids_eq_NR s yStep hs rest d (layoutNodeNR s yStep t d c).2]
end

mutual
theorem subtrees_shiftSubtree (sh : α) (t : PTree α) :
    (subtrees (shiftSubtree sh t)).map PTree.x
      = (subtrees t).map (fun q => q.x + sh) := by
  match t with
  | .mk a b ks =>
      rw [shiftSubtree]
      have hmap : ks.attach.map (fun q => shiftSubtree sh q.1)
          = ks.map (shiftSubtree sh) := by simp
      rw [hmap, subtrees_mk, subtrees_mk]
      rw [List.map_cons, List.map_cons]
      rw [show (PTree.mk (a + sh) b (ks.map (shiftSubtree sh))).x = a + sh from rfl]
      rw [show (PTree.mk a b ks).x = a from rfl]
      congr 1
      exact subtrees_shift_list sh ks

theorem subtrees_shift_list (sh : α) (ks : List (PTree α)) :
    ((ks.map (shiftSubtree sh)).flatMap subtrees).map PTree.x
      = (ks.flatMap subtrees).map (fun q => q.x + sh) := by
  match ks with
  | [] => rfl
  | k :: rest =>
      rw [List.map_cons, List.flatMap_cons, List.flatMap_cons,
        List.map_append, List.map_append]
      rw [subtrees_shiftSubtree sh k, subtrees_shift_list sh rest]
end

/-- C3: The collision repair shifts propagate as the spec demands — in fact
the sibling-collision pass never fires at all: the layout computed with the
repair passes equals the layout computed with them removed (post-order
placement already spaces siblings), and the root-pass shift operation
`shiftSubtree` adds the same offset to a node and every one of its
descendants, preserving relative positions inside a shifted subtree. -/
theorem C3_shift_propagation (n : Nat) (yStep : ℝ) (ts : List RTree) :
    layoutForest (minSpacing n) yStep ts = layoutForestNR (minSpacing n) yStep ts ∧
    ∀ (sh : ℝ) (t : PTree ℝ),
      (subtrees (shiftSubtree sh t)).map PTree.x
        = (subtrees t).map (fun q => q.x + sh) := by
  constructor
  · obtain ⟨_, hchain, _⟩ :=
      layoutKids_inv (minSpacing n) yStep (minSpacing_nonneg n) ts 0 0
    rw [layoutForest, rootRepair_no_op _ _ (minSpacing_nonneg n) hchain]
    rw [layoutForestNR, ← layoutKids_eq_NR _ _ (minSpacing_nonneg n) ts 0 0]
    rw [sortByX_sorted_id _ (hchain.imp (fun a b hab => by
      have := minSpacing_nonneg n
      linarith))]
  · exact fun sh t => subtrees_shiftSubtree sh t

/-!
Radial layout (circular-mean variant): leaves receive sequential angles in
steps of `2π / leafCount`; an internal node's angle is
`atan2(Σ sin(childAngle), Σ cos(childAngle))`; radius is `depth * radiusStep`.
-/

/-- A node after the radial layout: polar radius, angle, laid-out children. -/
inductive ATree where
  | mk : ℝ → ℝ → List ATree → ATree

/-- The polar radius `node.r` of a radially laid-out node. -/
def ATree.r : ATree → ℝ
  | .mk a _ _ => a

/-- The polar angle `node.angle` of a radially laid-out node. -/
def ATree.angle : ATree → ℝ
  | .mk _ a _ => a

/-- The laid-out children of a radially laid-out node. -/
def ATree.kids : ATree → List ATree
  | .mk _ _ ks => ks

@[simp] theorem ATree.r_mk (a b : ℝ) (ks : List ATree) :
    (ATree.mk a b ks).r = a := rfl

@[simp] theorem ATree.angle_mk (a b : ℝ) (ks : List ATree) :
    (ATree.mk a b ks).angle = b := rfl

@[simp] theorem ATree.kids_mk_eq (a b : ℝ) (ks : List ATree) :
    (ATree.mk a b ks).kids = ks := rfl

instance : Inhabited ATree := ⟨.mk 0 0 []⟩

/-- JavaScript's `Math.atan2(y, x)` on real numbers (zero signs ignored). -/
noncomputable def atan2 (y x : ℝ) : ℝ :=
  if 0 < x then Real.arctan (y / x)
  else if x < 0 then
    (if 0 ≤ y then Real.arctan (y / x) + Real.pi else Real.arctan (y / x) - Real.pi)
  else
    (if 0 < y then Real.pi / 2 else if y < 0 then -(Real.pi / 2) else 0)

mutual
/-- Number of layout leaves (`children.length === 0`) in one subtree. -/
def leavesT : RTree → Nat
  | .node [] => 1
  | .node (k :: ks) => leavesL (k :: ks)

/-- Number of layout leaves in a forest. -/
def leavesL : List RTree → Nat
  | [] => 0
  | t :: rest => leavesT t + leavesL rest
end

mutual
/-- The recursive radial `layout(node)`: sets `r = depth * radiusStep`; a
childless node takes the next sequential angle from the shared cursor;
otherwise children are laid out first and the node's angle is the circular
mean `atan2(Σ sin(childAngle), Σ cos(childAngle))`. -/
noncomputable def layoutR (radiusStep angleStep : ℝ) (t : RTree) (depth : Nat)
    (cursor : ℝ) : ATree × ℝ :=
  match t with
  | .node kids =>
      match kids with
      | [] => (.mk ((depth : ℝ) * radiusStep) cursor [], cursor + angleStep)
      | k0 :: krest =>
          let lk := layoutRKids radiusStep angleStep (k0 :: krest) (depth + 1) cursor
          let sx := (lk.1.map (fun c => Real.cos c.angle)).sum
          let sy := (lk.1.map (fun c => Real.sin c.angle)).sum
          (.mk ((depth : ℝ) * radiusStep) (atan2 sy sx) lk.1, lk.2)

/-- Sequential radial layout of a children array sharing the angle cursor. -/
noncomputable def layoutRKids (radiusStep angleStep : ℝ) (ts : List RTree)
    (depth : Nat) (cursor : ℝ) : List ATree × ℝ :=
  match ts with
  | [] => ([], cursor)
  | t :: rest =>
      let p := layoutR radiusStep angleStep t depth cursor
      let pr := layoutRKids radiusStep angleStep rest depth p.2
      (p.1 :: pr.1, pr.2)
end

/-- The angle step `(2 * Math.PI) / leafCount` with
`leafCount = Math.max(1, leaves.length)`. -/
noncomputable def angleStepOf (ts : List RTree) : ℝ :=
  2 * Real.pi / (max 1 (leavesL ts) : ℕ)

/-- The radial layout of the whole forest (the roots share the angle cursor,
which starts at 0). -/
noncomputable def radialForest (radiusStep : ℝ) (ts : List RTree) : List ATree :=
  (layoutRKids radiusStep (angleStepOf ts) ts 0 0).1

/-- Angles of the layout leaves of a laid-out subtree, in traversal order. -/
def leafAngles : ATree → List ℝ
  | .mk _ ang [] => [ang]
  | .mk _ _ (k :: ks) => (k :: ks).attach.flatMap fun q => leafAngles q.1
decreasing_by
  simp only [ATree.mk.sizeOf_spec]
  have := List.sizeOf_lt_of_mem q.2
  omega

/-- All nodes of a radially laid-out subtree, the node itself first. -/
def subtreesA : ATree → List ATree
  | .mk a b ks => .mk a b ks :: ks.attach.flatMap fun q => subtreesA q.1
decreasing_by
  simp only [ATree.mk.sizeOf_spec]
  have := List.sizeOf_lt_of_mem q.2
  omega

theorem leafAngles_cons (r a : ℝ) (k : ATree) (ks : List ATree) :
    leafAngles (.mk r a (k :: ks)) = (k :: ks).flatMap leafAngles := by
  rw [leafAngles]
  have h : ∀ l : List ATree,
      l.attach.flatMap (fun q => leafAngles q.1) = l.flatMap leafAngles :=
    fun l => by simp
  exact h (k :: ks)

theorem subtreesA_mk (a b : ℝ) (ks : List ATree) :
    subtreesA (.mk a b ks) = .mk a b ks :: ks.flatMap subtreesA := by
  rw [subtreesA]
  congr 1
  simp

theorem mem_subtreesA_mk {q : ATree} {a b : ℝ} {ks : List ATree} :
    q ∈ subtreesA (.mk a b ks) ↔ q = .mk a b ks ∨ ∃ p ∈ ks, q ∈ subtreesA p := by
  rw [subtreesA_mk, List.mem_cons, List.mem_flatMap]

theorem layoutRKids_fst_ne_nil (rs step : ℝ) (t : RTree) (rest : List RTree)
    (d : Nat) (cur : ℝ) : (layoutRKids rs step (t :: rest) d cur).1 ≠ [] := by
  rw [layoutRKids]
  simp

mutual
theorem layoutR_leafAngles (rs step : ℝ) (t : RTree) (d : Nat) (cur : ℝ) :
    leafAngles (layoutR rs step t d cur).1
        = (List.range (leavesT t)).map (fun i : ℕ => cur + (i : ℝ) * step) ∧
    (layoutR rs step t d cur).2 = cur + (leavesT t : ℝ) * step := by
  match t with
  | .node [] =>
      rw [layoutR, leavesT]
      refine ⟨?_, ?_⟩
      · rw [leafAngles]
        rw [show List.range 1 = [0] from rfl, List.map_cons, List.map_nil]
        norm_num
      · show cur + step = cur + ((1 : ℕ) : ℝ) * step
        push_cast
        ring
  | .node (k0 :: krest) =>
      rw [layoutR, leavesT]
      obtain ⟨hflat, hcur⟩ := layoutRKids_leafAngles rs step (k0 :: krest) (d + 1) cur
      simp only
      obtain ⟨a, l, hshape⟩ :
          ∃ a l, (layoutRKids rs step (k0 :: krest) (d + 1) cur).1 = a :: l := by
        cases hsh : (layoutRKids rs step (k0 :: krest) (d + 1) cur).1 with
        | nil => exact absurd hsh (layoutRKids_fst_ne_nil rs step k0 krest (d + 1) cur)
        | cons a l => exact ⟨a, l, rfl⟩
      rw [hshape] at hflat ⊢
      rw [leafAngles_cons]
      exact ⟨hflat, hcur⟩

theorem layoutRKids_leafAngles (rs step : ℝ) (ts : List RTree) (d : Nat)
    (cur : ℝ) :
    (layoutRKids rs step ts d cur).1.flatMap leafAngles
        = (List.range (leavesL ts)).map (fun i : ℕ => cur + (i : ℝ) * step) ∧
    (layoutRKids rs step ts d cur).2 = cur + (leavesL ts : ℝ) * step := by
  match ts with
  | [] =>
      rw [layoutRKids, leavesL]
      simp
  | t :: rest =>
      rw [layoutRKids, leavesL]
      obtain ⟨hf1, hc1⟩ := layoutR_leafAngles rs step t d cur
      obtain ⟨hf2, hc2⟩ :=
        layoutRKids_leafAngles rs step rest d (layoutR rs step t d cur).2
      simp only
      constructor
      · rw [List.flatMap_cons, hf1, hf2, hc1]
        rw [List.range_add, List.map_append, List.map_map]
        congr 1
        refine List.map_congr_left ?_
        intro i _
        simp only [Function.comp_apply]
        push_cast
        ring
      · rw [hc2, hc1]
        push_cast
        ring
end

mutual
theorem layoutR_angle_inv (rs step : ℝ) (t : RTree) (d : Nat) (cur : ℝ) :
    ∀ q ∈ subtreesA (layoutR rs step t d cur).1, q.kids ≠ [] →
      q.angle = atan2 ((q.kids.map (fun c => Real.sin c.angle)).sum)
          ((q.kids.map (fun c => Real.cos c.angle)).sum) := by
  match t with
  | .node [] =>
      rw [layoutR]
      intro q hq hne
      simp only at hq
      rw [mem_subtreesA_mk] at hq
      rcases hq with hq | ⟨p, hp, _⟩
      · subst hq
        simp at hne
      · exact absurd hp (List.not_mem_nil p)
  | .node (k0 :: krest) =>
      rw [layoutR]
      intro q hq hne
      simp only at hq
      rw [mem_subtreesA_mk] at hq
      rcases hq with hq | ⟨p, hp, hqp⟩
      · subst hq
        simp
      · exact layoutRKids_angle_inv rs step (k0 :: krest) (d + 1) cur p hp q hqp hne

theorem layoutRKids_angle_inv (rs step : ℝ) (ts : List RTree) (d : Nat)
    (cur : ℝ) :
    ∀ p ∈ (layoutRKids rs step ts d cur).1, ∀ q ∈ subtreesA p, q.kids ≠ [] →
      q.angle = atan2 ((q.kids.map (fun c => Real.sin c.angle)).sum)
          ((q.kids.map (fun c => Real.cos c.angle)).sum) := by
  match ts with
  | [] =>
      rw [layoutRKids]
      intro p hp
      exact absurd hp (List.not_mem_nil p)
  | t :: rest =>
      rw [layoutRKids]
      intro p hp q hq hne
      simp only at hp
      rcases List.mem_cons.mp hp with hp | hp
      · subst hp
        exact layoutR_angle_inv rs step t d cur q hq hne
      · exact layoutRKids_angle_inv rs step rest d _ p hp q hq hne
end

/-- The four-leaf forest whose first root has two leaf children: with
`leafCount = 4` the angle step is `π/2`, so the children receive angles
`0` and `π/2`. -/
def forest4 : List RTree :=
  [.node [.node [], .node []], .node [], .node []]

theorem angleStepOf_forest4 : angleStepOf forest4 = Real.pi / 2 := by
  have h4 : leavesL forest4 = 4 := rfl
  rw [angleStepOf, h4]
  norm_num
  ring

/-- C7: In the radial layout, each leaf receives the next sequential angle in
steps of `2π/leafCount`, every internal node's angle equals
`atan2(Σ sin(childAngle), Σ cos(childAngle))` over its children, and in
particular a parent whose two children have angles `0` and `π/2` is assigned
angle `π/4` (the first root of `forest4`). -/
theorem C7_radial_circular_mean (radiusStep : ℝ) :
    (∀ ts : List RTree,
      (radialForest radiusStep ts).flatMap leafAngles
        = (List.range (leavesL ts)).map (fun i : ℕ => (i : ℝ) * angleStepOf ts)) ∧
    (∀ ts : List RTree, ∀ p ∈ radialForest radiusStep ts, ∀ q ∈ subtreesA p,
      q.kids ≠ [] →
        q.angle = atan2 ((q.kids.map (fun c => Real.sin c.angle)).sum)
            ((q.kids.map (fun c => Real.cos c.angle)).sum)) ∧
    ((radialForest radiusStep forest4).headI).angle = Real.pi / 4 := by
  refine ⟨?_, ?_, ?_⟩
  · intro ts
    have h := (layoutRKids_leafAngles radiusStep (angleStepOf ts) ts 0 0).1
    rw [radialForest, h]
    refine List.map_congr_left ?_
    intro i _
    ring
  · intro ts
    exact layoutRKids_angle_inv radiusStep (angleStepOf ts) ts 0 0
  · have hstep : angleStepOf [RTree.node [RTree.node [], RTree.node []],
        RTree.node [], RTree.node []] = Real.pi / 2 := angleStepOf_forest4
    simp only [radialForest, forest4]
    rw [hstep]
    rw [layoutRKids, layoutR, layoutRKids, layoutR, layoutRKids, layoutR,
      layoutRKids]
    simp only [List.headI_cons, ATree.angle_mk, List.map_cons, List.map_nil,
      List.sum_cons, List.sum_nil, ATree.angle_mk]
    rw [show (0 : ℝ) + Real.pi / 2 = Real.pi / 2 from by ring]
    rw [Real.cos_zero, Real.sin_zero, Real.cos_pi_div_two, Real.sin_pi_div_two]
    rw [show (1 : ℝ) + (0 + 0) = 1 from by ring, show (0 : ℝ) + (1 + 0) = 1 from by ring]
    rw [atan2, if_pos (by norm_num : (0 : ℝ) < 1)]
    norm_num [Real.arctan_one]

/-!
Projection: `toScreen` (identical in the design3 variants) and the renderer.
-/

/-- The camera state `{x, y, z}`: pan offset and zoom divisor. -/
structure Camera where
  x : ℝ
  y : ℝ
  z : ℝ

/-- The layout bounding box `LayoutBounds`. -/
structure Bounds where
  xMin : ℝ
  xMax : ℝ
  yMin : ℝ
  yMax : ℝ

/-- The `|| 1` fallback applied to a bounds span (`0` is the only falsy real
in this model). -/
noncomputable def orOne (v : ℝ) : ℝ := if v = 0 then 1 else v

/-- `toScreen(x, y)`: converts normalized coordinates to screen pixels using
camera pan/zoom and the layout bounds, with `bx = (xMax - xMin) || 1`. -/
noncomputable def toScreen (cam : Camera) (b : Bounds) (cw ch : ℝ) (x y : ℝ) :
    ℝ × ℝ :=
  let w := cw / cam.z
  let h := ch / cam.z
  let bx := orOne (b.xMax - b.xMin)
  let bY := orOne (b.yMax - b.yMin)
  (-cam.x + (x - b.xMin) / bx * w, -cam.y + (y - b.yMin) / bY * h)

/-- C8: for every normalized point, camera with `camera.z ≠ 0` and bounds,
`toScreen` returns `screenX = -camera.x + (x - boundsXMin)/boundsWidth *
(canvasWidth/camera.z)` (symmetrically for Y), where the bounds width falls
back to 1 exactly when the bounds span is zero. -/
theorem C8_toScreen_formula (cam : Camera) (b : Bounds) (cw ch x y : ℝ)
    (hz : cam.z ≠ 0) :
    (toScreen cam b cw ch x y).1
        = -cam.x + (x - b.xMin) / orOne (b.xMax - b.xMin) * (cw / cam.z) ∧
    (toScreen cam b cw ch x y).2
        = -cam.y + (y - b.yMin) / orOne (b.yMax - b.yMin) * (ch / cam.z) ∧
    (b.xMax - b.xMin = 0 → orOne (b.xMax - b.xMin) = 1) ∧
    (b.xMax - b.xMin ≠ 0 → orOne (b.xMax - b.xMin) = b.xMax - b.xMin) := by
  refine ⟨rfl, rfl, ?_, ?_⟩
  · intro h0
    rw [orOne, if_pos h0]
  · intro h0
    rw [orOne, if_neg h0]

/-- Witness for C8 at a concrete camera, bounds and point. -/
theorem C8_toScreen_formula_witness :
    (Camera.mk 10 20 2).z ≠ 0 ∧
    ((toScreen (Camera.mk 10 20 2) (Bounds.mk 0 1 0 1) 800 600 (1/2) (1/4)).1
        = -(Camera.mk 10 20 2).x
          + ((1/2 : ℝ) - (Bounds.mk 0 1 0 1).xMin)
            / orOne ((Bounds.mk 0 1 0 1).xMax - (Bounds.mk 0 1 0 1).xMin)
            * (800 / (Camera.mk 10 20 2).z) ∧
      (toScreen (Camera.mk 10 20 2) (Bounds.mk 0 1 0 1) 800 600 (1/2) (1/4)).2
        = -(Camera.mk 10 20 2).y
          + ((1/4 : ℝ) - (Bounds.mk 0 1 0 1).yMin)
            / orOne ((Bounds.mk 0 1 0 1).yMax - (Bounds.mk 0 1 0 1).yMin)
            * (600 / (Camera.mk 10 20 2).z) ∧
      ((Bounds.mk 0 1 0 1).xMax - (Bounds.mk 0 1 0 1).xMin = 0
        → orOne ((Bounds.mk 0 1 0 1).xMax - (Bounds.mk 0 1 0 1).xMin) = 1) ∧
      ((Bounds.mk 0 1 0 1).xMax - (Bounds.mk 0 1 0 1).xMin ≠ 0
        → orOne ((Bounds.mk 0 1 0 1).xMax - (Bounds.mk 0 1 0 1).xMin)
            = (Bounds.mk 0 1 0 1).xMax - (Bounds.mk 0 1 0 1).xMin)) :=
  ⟨by norm_num,
    C8_toScreen_formula (Camera.mk 10 20 2) (Bounds.mk 0 1 0 1) 800 600
      (1/2) (1/4) (by norm_num)⟩

/-- A tree node annotated with layout fields (`x`, `y`, `radius`), as stored
in `TreeNodes` after `MakePoster`. -/
structure RNode where
  id : String
  depth : Nat
  x : ℝ
  y : ℝ
  radius : ℝ

/-- The module state touched by `MakePoster` and read by `Render`:
`TreeNodes`, `TreeEdges`, `LayoutBounds`, `TruncatedMessage`. -/
structure PosterState where
  treeNodes : List RNode
  treeEdges : List BEdge
  layoutBounds : Bounds
  truncatedMessage : Option String

/-- `nodeById` lookup: `forEach` assignment means the last node with a given
id wins. -/
def findNodeById (nodes : List BNode) (id : String) : Option BNode :=
  (nodes.filter (fun n => n.id = id)).getLast?

/-- The children array reconstructed from the edge list (edges are pushed in
walk order, so children appear in key order). -/
def childIdsOf (edges : List BEdge) (id : String) : List String :=
  (edges.filter (fun e => e.fromId = id)).map (fun e => e.toId)

/-- The random radial placement of the first design3 variant: each child gets
radius `0.08 * 0.65 ^ depth`, a random angle `rand() * 2π` (the oracle `rand`
models `Math.random`, consumed one value per child), and sits at distance
`1 * (parentRadius + childRadius)` from its parent; then its own children are
placed recursively. `fuel` bounds the recursion depth by the node count. -/
noncomputable def layoutRandKids (rand : ℕ → ℝ) (nodes : List BNode)
    (edges : List BEdge) (fuel : ℕ) (ids : List String) (px py pr : ℝ)
    (i : ℕ) : List RNode × ℕ :=
  match ids with
  | [] => ([], i)
  | id :: rest =>
      let this : List RNode × ℕ :=
        match findNodeById nodes id, fuel with
        | some bn, fuel' + 1 =>
            let radius := (0.08 : ℝ) * (0.65 : ℝ) ^ bn.depth
            let angle := rand i * (2 * Real.pi)
            let dist := 1 * (pr + radius)
            let x := px + Real.cos angle * dist
            let y := py + Real.sin angle * dist
            let sub := layoutRandKids rand nodes edges fuel'
              (childIdsOf edges bn.id) x y radius (i + 1)
            ({ id := bn.id, depth := bn.depth, x := x, y := y,
               radius := radius } :: sub.1, sub.2)
        | _, _ => ([], i)
      let rest2 := layoutRandKids rand nodes edges fuel rest px py pr this.2
      (this.1 ++ rest2.1, rest2.2)
termination_by (fuel, ids.length)
decreasing_by
  · exact Prod.Lex.left _ _ (Nat.lt_succ_self _)
  · exact Prod.Lex.right _ (by simp)

/-- Root placement: every depth-0 node sits at `(0.5, 0.5)` with radius
`0.08` and its children radiate from it. -/
noncomputable def layoutRandRoots (rand : ℕ → ℝ) (nodes : List BNode)
    (edges : List BEdge) (fuel : ℕ) (roots : List BNode) (i : ℕ) :
    List RNode × ℕ :=
  match roots with
  | [] => ([], i)
  | r :: rest =>
      let sub := layoutRandKids rand nodes edges fuel (childIdsOf edges r.id)
        (0.5 : ℝ) (0.5 : ℝ) (0.08 : ℝ) i
      let rest2 := layoutRandRoots rand nodes edges fuel rest sub.2
      ({ id := r.id, depth := r.depth, x := 0.5, y := 0.5, radius := 0.08 }
          :: sub.1 ++ rest2.1, rest2.2)

/-- Smallest element of a list of reals (the `Math.min` fold of STEP 5;
callers only use it on nonempty lists). -/
def listMin (l : List ℝ) : ℝ := l.foldr min l.headI

/-- Largest element of a list of reals. -/
def listMax (l : List ℝ) : ℝ := l.foldr max l.headI

/-- STEP 5: bounds over `position ± radius` with a `0.05` margin. -/
noncomputable def boundsOf (ns : List RNode) : Bounds :=
  { xMin := listMin (ns.map fun n => n.x - n.radius) - 0.05,
    xMax := listMax (ns.map fun n => n.x + n.radius) + 0.05,
    yMin := listMin (ns.map fun n => n.y - n.radius) - 0.05,
    yMax := listMax (ns.map fun n => n.y + n.radius) + 0.05 }

/-- `MakePoster()` of the first design3 variant as a state transformer: reset
the scene, return early on a null `DirectoryMap` or an empty walk (leaving
`LayoutBounds` untouched), otherwise build nodes, edges, random radial layout,
bounds and the truncation message. -/
noncomputable def makePoster (maxN maxL : ℕ) (dm : Option JVal) (rand : ℕ → ℝ)
    (prev : PosterState) : PosterState :=
  let reset : PosterState :=
    { treeNodes := [], treeEdges := [], layoutBounds := prev.layoutBounds,
      truncatedMessage := none }
  match dm with
  | none => reset
  | some v =>
      let w := runWalk maxN maxL v
      if w.nodes.length = 0 then reset
      else
        let roots := w.nodes.filter (fun n => n.depth = 0)
        let rendered := (layoutRandRoots rand w.nodes w.edges w.nodes.length
          roots 0).1
        { treeNodes := rendered,
          treeEdges := w.edges,
          layoutBounds := boundsOf rendered,
          truncatedMessage :=
            if maxN ≤ w.count then
              some ("Showing first " ++ toString maxN ++ " nodes")
            else none }

/-- C9: if the root input is null or the walk yields zero nodes, MakePoster
returns with TreeNodes and TreeEdges empty, TruncatedMessage null, and
LayoutBounds exactly equal to its value before the call; being a total
function of its inputs, it cannot throw. -/
theorem C9_empty_scene_preserves_bounds (maxN maxL : ℕ) (dm : Option JVal)
    (rand : ℕ → ℝ) (prev : PosterState)
    (h : dm = none ∨ ∃ v, dm = some v ∧ (runWalk maxN maxL v).nodes = []) :
    makePoster maxN maxL dm rand prev
      = { treeNodes := [], treeEdges := [],
          layoutBounds := prev.layoutBounds, truncatedMessage := none } := by
  rcases h with h | ⟨v, hv, hnil⟩
  · subst h
    rfl
  · subst hv
    rw [makePoster]
    simp only [hnil, List.length_nil]
    rw [if_pos trivial]

/-- Witness for C9: a previous state with nontrivial bounds survives a build
from the empty object `{}` (whose walk yields zero nodes) untouched. -/
theorem C9_empty_scene_preserves_bounds_witness :
    ((some (JVal.obj []) : Option JVal) = none ∨
      ∃ v, (some (JVal.obj []) : Option JVal) = some v ∧
        (runWalk 100000 4 v).nodes = []) ∧
    makePoster 100000 4 (some (JVal.obj [])) (fun _ => 0)
        { treeNodes := [], treeEdges := [], layoutBounds := Bounds.mk 3 4 5 6,
          truncatedMessage := none }
      = { treeNodes := [], treeEdges := [], layoutBounds := Bounds.mk 3 4 5 6,
          truncatedMessage := none } :=
  ⟨Or.inr ⟨JVal.obj [], rfl, by decide⟩,
    C9_empty_scene_preserves_bounds 100000 4 (some (JVal.obj [])) (fun _ => 0)
      { treeNodes := [], treeEdges := [], layoutBounds := Bounds.mk 3 4 5 6,
        truncatedMessage := none }
      (Or.inr ⟨JVal.obj [], rfl, by decide⟩)⟩

/-- `depthToColor(depth, maxDepth)`: blue→purple→red gradient with a fixed
default when `maxDepth === 0`; channels floored as by JS integer rendering. -/
noncomputable def depthToColor (depth maxDepth : ℕ) : ℤ × ℤ × ℤ :=
  if maxDepth = 0 then (100, 180, 255)
  else
    let t : ℝ := (depth : ℝ) / (maxDepth : ℝ)
    (⌊(100 : ℝ) + t * 155⌋, ⌊(180 : ℝ) - t * 100⌋, ⌊(255 : ℝ) - t * 100⌋)

/-- One canvas operation issued by `Render`, in emission order. The `disc`
call records the depth of the node it was drawn for (the quantity any
depth-sort would key on) alongside its screen geometry and color. -/
inductive DrawCall where
  | background : DrawCall
  | statusText : String → DrawCall
  | disc : ℝ → ℝ → ℝ → ℤ × ℤ × ℤ → ℕ → DrawCall
  | rim : ℝ → ℝ → ℝ → DrawCall
  | truncText : String → DrawCall

/-- The placeholder message keyed by `LoadStatus`. -/
def statusMsg (loadStatus : String) : String :=
  if loadStatus = "parsing" then "Parsing directory_map.json…"
  else if loadStatus = "error" then "Failed to load directory_map.json"
  else "Loading directory_map.json…"

/-- The draw-call sequence of `Render()` (first design3 variant): background;
if the scene is empty only a status message; otherwise one filled disc and
one rim stroke per node, iterating `TreeNodes` in list order, followed by the
truncation overlay when set. -/
noncomputable def renderCalls (scene : PosterState) (cam : Camera)
    (cw ch : ℝ) (loadStatus : String) : List DrawCall :=
  if scene.treeNodes.length = 0 then
    [.background, .statusText (statusMsg loadStatus)]
  else
    let maxDepth := scene.treeNodes.foldl (fun m n => max m n.depth) 0
    let w := cw / cam.z
    let h := ch / cam.z
    let bx := orOne (scene.layoutBounds.xMax - scene.layoutBounds.xMin)
    let bY := orOne (scene.layoutBounds.yMax - scene.layoutBounds.yMin)
    let scale := (w / bx + h / bY) * (0.5 : ℝ)
    DrawCall.background ::
      (scene.treeNodes.flatMap (fun n =>
        let p := toScreen cam scene.layoutBounds cw ch n.x n.y
        let r0 := if n.radius = 0 then (0.01 : ℝ) else n.radius
        let radiusPx := max 2 (r0 * scale)
        [DrawCall.disc p.1 p.2 radiusPx (depthToColor n.depth maxDepth) n.depth,
         DrawCall.rim p.1 p.2 radiusPx]))
      ++ (match scene.truncatedMessage with
          | some m => [DrawCall.truncText m]
          | none => [])

/-- The depths of the node discs a call sequence draws, in drawing order. -/
def discDepths (calls : List DrawCall) : List ℕ :=
  calls.filterMap fun c =>
    match c with
    | .disc _ _ _ _ d => some d
    | _ => none

/-- A reachable two-node scene (input `{"a": {"b": null}}`): the walk lists
"a" (depth 0) before "a/b" (depth 1), whatever positions the layout chose. -/
noncomputable def sceneAB : PosterState :=
  { treeNodes :=
      [{ id := "a", depth := 0, x := 1/2, y := 1/2, radius := 2/25 },
       { id := "a/b", depth := 1, x := 3/5, y := 3/5, radius := 13/250 }],
    treeEdges := [{ fromId := "a", toId := "a/b" }],
    layoutBounds := { xMin := 0, xMax := 1, yMin := 0, yMax := 1 },
    truncatedMessage := none }

/-- C6 counterexample: Render draws the disc for the depth-0 node "a" before
the disc for the depth-1 node "a/b" (TreeNodes order), so the disc sequence
is not sorted by descending depth — no back-to-front ordering happens. -/
theorem C6_counterexample_draw_order :
    ¬ List.Chain' (fun a b => b ≤ a)
        (discDepths (renderCalls sceneAB (Camera.mk 0 0 1) 800 600 "ready")) := by
  have h : discDepths (renderCalls sceneAB (Camera.mk 0 0 1) 800 600 "ready")
      = [0, 1] := rfl
  rw [h]
  intro hc
  rw [List.chain'_cons] at hc
  exact absurd hc.1 (by omega)

theorem discDepths_append (l1 l2 : List DrawCall) :
    discDepths (l1 ++ l2) = discDepths l1 ++ discDepths l2 := by
  rw [discDepths, discDepths, discDepths, List.filterMap_append]

/-- C6 (amended): Render emits the node discs exactly in `TreeNodes` list
order — the walk's DFS preorder — performing no depth sort: the sequence of
disc depths equals the sequence of node depths in scene order. -/
theorem C6_discs_in_scene_order (scene : PosterState) (cam : Camera)
    (cw ch : ℝ) (loadStatus : String) :
    discDepths (renderCalls scene cam cw ch loadStatus)
      = scene.treeNodes.map (fun n => n.depth) := by
  rw [renderCalls]
  by_cases h0 : scene.treeNodes.length = 0
  · rw [if_pos h0]
    rw [List.length_eq_zero] at h0
    rw [h0]
    rfl
  · rw [if_neg h0]
    simp only
    have hmain : ∀ (ns : List RNode) (f : RNode → ℝ × ℝ) (g : RNode → ℝ)
        (md : ℕ),
        discDepths (ns.flatMap (fun n =>
          [DrawCall.disc (f n).1 (f n).2 (g n) (depthToColor n.depth md) n.depth,
           DrawCall.rim (f n).1 (f n).2 (g n)]))
          = ns.map (fun n => n.depth) := by
      intro ns f g md
      induction ns with
      | nil => rfl
      | cons n rest ih =>
          rw [List.flatMap_cons, discDepths_append, ih, List.map_cons]
          rfl
    have htail : ∀ msg : Option String,
        discDepths (match msg with
          | some m => [DrawCall.truncText m]
          | none => ([] : List DrawCall)) = [] := by
      intro msg
      cases msg <;> rfl
    show discDepths (DrawCall.background :: _ ++ _) = _
    rw [show ∀ (a : DrawCall) (l1 l2 : List DrawCall), a :: l1 ++ l2
        = [a] ++ l1 ++ l2 from fun a l1 l2 => rfl]
    rw [discDepths_append, discDepths_append]
    rw [hmain scene.treeNodes
      (fun n => toScreen cam scene.layoutBounds cw ch n.x n.y)
      (fun n => max 2 ((if n.radius = 0 then (0.01 : ℝ) else n.radius)
        * ((cw / cam.z / orOne (scene.layoutBounds.xMax - scene.layoutBounds.xMin)
            + ch / cam.z / orOne (scene.layoutBounds.yMax - scene.layoutBounds.yMin))
          * (0.5 : ℝ))))]
    rw [htail]
    simp [discDepths]

/-- C5: For input `{"a": {"b": null, "c": null}}` with node cap 100 and depth
cap 10, the builder produces exactly 3 nodes — id "a" (type dir, depth 0),
id "a/b" (type file, depth 1), id "a/c" (type file, depth 1) — and exactly
2 edges, from "a" to "a/b" and from "a" to "a/c". -/
theorem C5_three_nodes_two_edges :
    (runWalk 100 10 scenarioInput).nodes.map (fun n => (n.id, n.type, n.depth)) =
      [("a", "dir", 0), ("a/b", "file", 1), ("a/c", "file", 1)] ∧
    (runWalk 100 10 scenarioInput).edges =
      [{ fromId := "a", toId := "a/b" }, { fromId := "a", toId := "a/c" }] := by
  constructor <;> rfl
